import Mathlib

/-!
Shallow embedding of the AquariWM layout core
(`src/layout/implementations.rs` and
`src/layout/implementations/node_changes.rs`), together with proofs about
the claims of the natural-language specification.

Modelling conventions:
* `usize`/`u32` values are modelled as `Nat`.  The checked operations that
  the relevant claims exercise — subtraction that can underflow and the
  divisions that can divide by zero — are modelled explicitly: an execution
  that would panic in Rust is represented by a distinguished `panic` result
  (`Option`-`none`, or `Run.panic` for the commit pass).  Multiplication
  overflow, which is unreachable for realistic screen extents, is not
  modelled.
* Rust's `Vec`/`VecDeque` storage is modelled as `List`.
  `slice::partition_point(|&a| a < index)` on a sorted slice returns the
  length of the maximal prefix of elements `< index`, i.e. the length of
  `takeWhile (· < index)`; `slice::binary_search(&index)` on a sorted,
  duplicate-free slice succeeds exactly when the first element `≥ index`
  equals `index`.  The bookkeeping functions below embed the two searches
  through those contracts.
* The fallible resize callback is modelled as a pure function
  `W → Nat → Nat → Except E Unit`.
* `apply_changes` recurses into child groups; the recursion is embedded
  with an explicit fuel argument (`Run.fuelOut` when the fuel runs out), so
  that every definition stays executable.  A hypothesis
  `applyChangesG … = Run.done …` states that the fuelled run finished,
  which holds for every actual run with fuel larger than the tree depth.
-/

namespace AquariWM

/-- The four layout orientations (`Orientation` in the source). -/
inductive Orientation : Type where
  | leftToRight
  | topToBottom
  | rightToLeft
  | bottomToTop
deriving DecidableEq, Repr

/-- The two axes (`Axis` in the source). -/
inductive Axis : Type where
  | horizontal
  | vertical
deriving DecidableEq, Repr

namespace Orientation

/-- `Orientation::reversed`: right-to-left and bottom-to-top are reversed. -/
def reversed : Orientation → Bool
  | .leftToRight | .topToBottom => false
  | .rightToLeft | .bottomToTop => true

/-- `Orientation::axis`. -/
def axis : Orientation → Axis
  | .leftToRight | .rightToLeft => .horizontal
  | .topToBottom | .bottomToTop => .vertical

end Orientation

/-- `Axis::flipped`. -/
def Axis.flipped : Axis → Axis
  | .horizontal => .vertical
  | .vertical => .horizontal

/-- `WindowNode`: a window handle plus absolute width and height. -/
structure WindowNode (W : Type) : Type where
  window : W
  width : Nat
  height : Nat
deriving DecidableEq, Repr

/-- The fields of `GroupNode`, parameterised by the child-node type so that
the tagged union `Node` below can be a nested inductive. -/
structure GroupNodeF (N : Type) : Type where
  orientation : Orientation
  nodes : List N
  total_node_primary : Nat
  additions : List Nat
  total_removed_primary : Nat
  new_orientation : Option Orientation
  new_width : Option Nat
  new_height : Option Nat
  width : Nat
  height : Nat
deriving Repr

/-- `Node`: the tagged union of window leaves and nested groups. -/
inductive Node (W : Type) : Type where
  | window : WindowNode W → Node W
  | group : GroupNodeF (Node W) → Node W

/-- `GroupNode<Window>` from the source. -/
abbrev GroupNode (W : Type) : Type := GroupNodeF (Node W)

namespace Node

/-- `Node::width`. -/
def width : Node W → Nat
  | .window n => n.width
  | .group n => n.width

/-- `Node::height`. -/
def height : Node W → Nat
  | .window n => n.height
  | .group n => n.height

/-- `Node::set_width`. -/
def set_width : Node W → Nat → Node W
  | .window n, w => .window { n with width := w }
  | .group n, w => .group { n with width := w }

/-- `Node::set_height`. -/
def set_height : Node W → Nat → Node W
  | .window n, h => .window { n with height := h }
  | .group n, h => .group { n with height := h }

/-- `Node::primary`: the extent along the given axis. -/
def primary (n : Node W) : Axis → Nat
  | .horizontal => n.width
  | .vertical => n.height

/-- `Node::secondary`: the extent along the other axis. -/
def secondary (n : Node W) : Axis → Nat
  | .horizontal => n.height
  | .vertical => n.width

/-- `Node::set_primary`. -/
def set_primary (n : Node W) (p : Nat) : Axis → Node W
  | .horizontal => n.set_width p
  | .vertical => n.set_height p

/-- `Node::set_secondary`. -/
def set_secondary (n : Node W) (s : Nat) : Axis → Node W
  | .horizontal => n.set_height s
  | .vertical => n.set_width s

/-- `Node::new_window`. -/
def new_window (window : W) (width height : Nat) : Node W :=
  .window ⟨window, width, height⟩

/-- `Node::new_group` (`GroupNode::new` inlined: all bookkeeping empty). -/
def new_group (orientation : Orientation) (width height : Nat) : Node W :=
  .group ⟨orientation, [], 0, [], 0, none, none, none, width, height⟩

end Node

namespace GroupNodeF

variable {W : Type}

/-- `GroupNode::new`: an empty group. -/
def new (orientation : Orientation) (width height : Nat) : GroupNode W :=
  ⟨orientation, [], 0, [], 0, none, none, none, width, height⟩

/-- The `GroupNode::orientation()` *method*: the effective orientation —
`new_orientation` if one is pending, else the committed `orientation`
field. -/
def effectiveOrientation (g : GroupNode W) : Orientation :=
  match g.new_orientation with
  | some o => o
  | none => g.orientation

/-- `GroupNode::set_orientation`: records a pending orientation. -/
def set_orientation (g : GroupNode W) (new : Orientation) : GroupNode W :=
  { g with new_orientation := some new }

/-- `GroupNode::rotate_by`, exactly as written in the source: the rotation
count is added to the current orientation's index and the result of
`.div_euclid(4)` — the Euclidean *quotient*, not the remainder — selects
the new orientation; any quotient outside `0..=3` hits `unreachable!`,
modelled as `none` (panic). -/
def rotate_by (g : GroupNode W) (rotations : Int) : Option (GroupNode W) :=
  let current : Int :=
    match g.orientation with
    | .leftToRight => 0
    | .topToBottom => 1
    | .rightToLeft => 2
    | .bottomToTop => 3
  let d := (current + rotations).ediv 4
  if d = 0 then some (g.set_orientation .leftToRight)
  else if d = 1 then some (g.set_orientation .topToBottom)
  else if d = 2 then some (g.set_orientation .rightToLeft)
  else if d = 3 then some (g.set_orientation .bottomToTop)
  else none

/-- `GroupNode::len`. -/
def len (g : GroupNode W) : Nat := g.nodes.length

/-- `GroupNode::is_empty`. -/
def is_empty (g : GroupNode W) : Bool := g.nodes.isEmpty

/-- `GroupNode::primary` on the group itself: its extent along the axis of
the *effective* orientation. -/
def primaryExtent (g : GroupNode W) : Nat :=
  match g.effectiveOrientation.axis with
  | .horizontal => g.width
  | .vertical => g.height

/-- `GroupNode::secondary` on the group itself. -/
def secondaryExtent (g : GroupNode W) : Nat :=
  match g.effectiveOrientation.axis with
  | .horizontal => g.height
  | .vertical => g.width

/-- `GroupNode::get`.  The outer `Option` is the panic monad: the source
computes `last - index` with `last = nodes.len() - 1` whenever the
effective orientation is reversed, and that unsigned subtraction
underflows — a panic under Rust's checked arithmetic — when the group is
empty or `index > last`.  The inner `Option` is the function's actual
return value. -/
def get (g : GroupNode W) (index : Nat) : Option (Option (Node W)) :=
  if g.effectiveOrientation.reversed = false then
    some (if h : index < g.nodes.length then some (g.nodes.get ⟨index, h⟩) else none)
  else
    if hz : g.nodes.length = 0 then none
    else
      let last := g.nodes.length - 1
      if h : index ≤ last then
        some (some (g.nodes.get ⟨last - index, by omega⟩))
      else none

/-- `GroupNode::get_mut`: identical index logic to `get` (the source bodies
differ only in mutability). -/
def get_mut (g : GroupNode W) (index : Nat) : Option (Option (Node W)) :=
  get g index

/-- `GroupNode::track_insert`: `additions.partition_point(|&i| i < index)`
on the sorted `additions` is the length of `takeWhile (· < index)`;
`index` is inserted there and every later entry is shifted up by one. -/
def track_insert (index : Nat) (adds : List Nat) : List Nat :=
  adds.takeWhile (fun a => a < index)
    ++ index :: (adds.dropWhile (fun a => a < index)).map (· + 1)

/-- `GroupNode::track_push`: `nodes.len() - 1` — the index of the node just
pushed — is appended to `additions`.  `lenAfterPush` is `self.len()` at the
call site, i.e. the length *after* the push. -/
def track_push (lenAfterPush : Nat) (adds : List Nat) : List Nat :=
  adds ++ [lenAfterPush - 1]

/-- `GroupNode::track_remove`: `additions.binary_search(&index)` on the
sorted, duplicate-free `additions` succeeds exactly when the first entry
`≥ index` (the head of `dropWhile (· < index)`) equals `index`; that entry
is then removed.  In both cases every entry at or after the search point is
shifted down by one. -/
def track_remove (index : Nat) (adds : List Nat) : List Nat :=
  let pre := adds.takeWhile (fun a => a < index)
  let suf := adds.dropWhile (fun a => a < index)
  if suf.head? = some index then pre ++ suf.tail.map (fun x => x - 1)
  else pre ++ suf.map (fun x => x - 1)

/-- `GroupNode::changes_made`. -/
def changes_made (g : GroupNode W) : Bool :=
  !g.additions.isEmpty
    || g.total_removed_primary != 0
    || g.new_orientation.isSome
    || g.new_width.isSome
    || g.new_height.isSome

/-- `GroupNode::push_node`: pushed to the back of storage when the
*committed* `orientation` field is not reversed, otherwise physically
inserted at storage slot 0. -/
def push_node (g : GroupNode W) (node : Node W) : GroupNode W :=
  if g.orientation.reversed = false then
    let nodes' := g.nodes ++ [node]
    { g with nodes := nodes', additions := track_push nodes'.length g.additions }
  else
    { g with nodes := node :: g.nodes, additions := track_insert 0 g.additions }

/-- `GroupNode::push_window`. -/
def push_window (g : GroupNode W) (window : W) : GroupNode W :=
  g.push_node (Node.new_window window 0 0)

/-- `GroupNode::push_group`. -/
def push_group (g : GroupNode W) (orientation : Orientation) : GroupNode W :=
  g.push_node (Node.new_group orientation 0 0)

/-- `GroupNode::insert_window`; `none` models the panic of inserting past
the end of storage. -/
def insert_window (g : GroupNode W) (index : Nat) (window : W) :
    Option (GroupNode W) :=
  if index ≤ g.nodes.length then
    some { g with nodes := g.nodes.insertIdx index (Node.new_window window 0 0),
                  additions := track_insert index g.additions }
  else none

/-- `GroupNode::insert_group`; `none` models the panic of inserting past
the end of storage. -/
def insert_group (g : GroupNode W) (index : Nat) (orientation : Orientation) :
    Option (GroupNode W) :=
  if index ≤ g.nodes.length then
    some { g with nodes := g.nodes.insertIdx index (Node.new_group orientation 0 0),
                  additions := track_insert index g.additions }
  else none

/-- `GroupNode::remove`: removes the node at *storage* `index` (no
reversed-index transform in the source), updates `additions`, and adds the
removed node's primary extent along the axis of the *committed*
`orientation` field to `total_removed_primary`.  Returns the removed node
and the updated group; `none` models the out-of-range panic. -/
def remove (g : GroupNode W) (index : Nat) :
    Option (Node W × GroupNode W) :=
  if h : index < g.nodes.length then
    let node := g.nodes.get ⟨index, h⟩
    some (node,
      { g with nodes := g.nodes.eraseIdx index,
               additions := track_remove index g.additions,
               total_removed_primary :=
                 g.total_removed_primary + node.primary g.orientation.axis })
  else none

end GroupNodeF

/-- `TilingLayout`: a root `GroupNode`. -/
structure TilingLayout (W : Type) : Type where
  root : GroupNode W

/-- `Borrow<GroupNode<Window>> for TilingLayout`: returns the root. -/
def TilingLayout.borrowRoot (t : TilingLayout W) : GroupNode W := t.root

/-- `Deref for TilingLayout` exactly as written in the source: the body is
`self`, which has type `&TilingLayout` and is converted to the return type
`&GroupNode` by the deref coercion — i.e. by calling this very function
again.  The embedding makes the self-call explicit and counts its
recursion depth with fuel: `none` means the evaluation did not finish
within the given depth. -/
def TilingLayout.derefFuel : Nat → TilingLayout W → Option (GroupNode W)
  | 0, _ => none
  | fuel + 1, t => derefFuel fuel t

/-- Outcome of a fuelled run of the commit pass: the fuel ran out, the run
panicked (checked-arithmetic failure such as a division by zero), or the
run finished with a value. -/
inductive Run (α : Type) : Type where
  | fuelOut
  | panic
  | done (value : α)

/-- The closure `set_node_dimensions` of `apply_changes`: set the node's
primary and secondary extents along the (new) axis, then recurse into the
node if it is a group, or invoke `resize_window` if it is a window.
`applyG` is the recursive call `apply_changes` at one less fuel. -/
def applyNodeWith (applyG : GroupNode W → Run (GroupNode W × Except E Unit))
    (resize : W → Nat → Nat → Except E Unit)
    (node : Node W) (p s : Nat) (axis : Axis) : Run (Node W × Except E Unit) :=
  match (node.set_primary p axis).set_secondary s axis with
  | .window wn => .done (.window wn, resize wn.window p s)
  | .group gg =>
      match applyG gg with
      | .fuelOut => .fuelOut
      | .panic => .panic
      | .done (gg', st) => .done (.group gg', st)

/-- The resize loop of `apply_changes` (source lines 279–301): walk the
children left to right with the sorted pending-addition indices; a child
whose index is the next pending addition is assigned `(q, gs)`; any other
child is rescaled to `old_primary * rescale / oldTotal` — a division that
panics when `oldTotal` is zero.  The first callback failure stops the
walk, leaving the remaining children untouched.  `acc` is
`new_total_node_primary`, pre-charged with the additions' share. -/
def processWith (applyG : GroupNode W → Run (GroupNode W × Except E Unit))
    (resize : W → Nat → Nat → Except E Unit) (newAxis oldAxis : Axis)
    (q gs rescale oldTotal : Nat) :
    List (Node W) → List Nat → Nat → Nat →
      Run (List (Node W) × Nat × Except E Unit)
  | [], _, _, acc => .done ([], acc, .ok ())
  | node :: rest, adds, idx, acc =>
    if adds.head? = some idx then
      match applyNodeWith applyG resize node q gs newAxis with
      | .fuelOut => .fuelOut
      | .panic => .panic
      | .done (n', .error e) => .done (n' :: rest, acc, .error e)
      | .done (n', .ok _) =>
          match processWith applyG resize newAxis oldAxis q gs rescale oldTotal
              rest adds.tail (idx + 1) acc with
          | .fuelOut => .fuelOut
          | .panic => .panic
          | .done (ns', acc', st) => .done (n' :: ns', acc', st)
    else
      if oldTotal = 0 then .panic
      else
        let p := node.primary oldAxis * rescale / oldTotal
        match applyNodeWith applyG resize node p gs newAxis with
        | .fuelOut => .fuelOut
        | .panic => .panic
        | .done (n', .error e) => .done (n' :: rest, acc, .error e)
        | .done (n', .ok _) =>
            match processWith applyG resize newAxis oldAxis q gs rescale oldTotal
                rest adds (idx + 1) (acc + p) with
            | .fuelOut => .fuelOut
            | .panic => .panic
            | .done (ns', acc', st) => .done (n' :: ns', acc', st)

/-- The no-pending-changes branch of `apply_changes` (source lines
194–206): recurse into every child group, stopping at the first error;
window children are not touched. -/
def recurseWith (applyG : GroupNode W → Run (GroupNode W × Except E Unit)) :
    List (Node W) → Run (List (Node W) × Except E Unit)
  | [] => .done ([], .ok ())
  | .window wn :: rest =>
      match recurseWith applyG rest with
      | .fuelOut => .fuelOut
      | .panic => .panic
      | .done (ns', st) => .done (.window wn :: ns', st)
  | .group gg :: rest =>
      match applyG gg with
      | .fuelOut => .fuelOut
      | .panic => .panic
      | .done (gg', .error e) => .done (.group gg' :: rest, .error e)
      | .done (gg', .ok _) =>
          match recurseWith applyG rest with
          | .fuelOut => .fuelOut
          | .panic => .panic
          | .done (ns', st) => .done (.group gg' :: ns', st)

/-- Steps 2–4 of the commit (source lines 208–229): the pending log is
snapshotted and cleared (`mem::take`), and the pending
orientation/width/height are applied to the committed fields.
`total_node_primary` and `nodes` are untouched here. -/
def commitTarget (g : GroupNode W) : GroupNode W :=
  { g with additions := [], total_removed_primary := 0,
           new_orientation := none, new_width := none, new_height := none,
           orientation := g.new_orientation.getD g.orientation,
           width := g.new_width.getD g.width,
           height := g.new_height.getD g.height }

/-- `old_total_node_primary` (source line 233):
`total_node_primary - total_removed_primary`, the pre-removal baseline. -/
def commitOldTotal (g : GroupNode W) : Nat :=
  g.total_node_primary - g.total_removed_primary

/-- `new_primary` (source line 270): `group_primary / nodes.len()`, the
share given to every pending addition.  The division by a zero
`nodes.len()` is guarded by a panic check in `applyChangesG` below. -/
def commitQ (g : GroupNode W) : Nat :=
  (commitTarget g).primaryExtent / g.nodes.length

/-- The initial `new_total_node_primary` (source line 271):
`new_primary * additions.len()`. -/
def commitPre (g : GroupNode W) : Nat :=
  commitQ g * g.additions.length

/-- `rescaling_primary` (source line 273):
`group_primary - new_total_node_primary`, the budget left for the old
children. -/
def commitRescale (g : GroupNode W) : Nat :=
  (commitTarget g).primaryExtent - commitPre g

/-- `GroupNode::apply_changes`, with fuel bounding the recursion depth.
With no pending changes the pass only recurses into child groups.
Otherwise the pending log is snapshotted and cleared, the pending
orientation/width/height are applied (`commitTarget`), and the children
are resized by `processWith`; the checked subtractions and the division by
a zero child count are modelled as panic checks, placed in the source's
evaluation order; `total_node_primary` is stored (as the accumulated
total) only when the whole walk succeeded. -/
def applyChangesG (resize : W → Nat → Nat → Except E Unit) :
    Nat → GroupNode W → Run (GroupNode W × Except E Unit)
  | 0, _ => .fuelOut
  | fuel + 1, g =>
    if g.changes_made = false then
      match recurseWith (fun gg => applyChangesG resize fuel gg) g.nodes with
      | .fuelOut => .fuelOut
      | .panic => .panic
      | .done (ns, st) => .done ({ g with nodes := ns }, st)
    else
      if g.total_node_primary < g.total_removed_primary then .panic
      else if g.nodes.length = 0 then .panic
      else if (commitTarget g).primaryExtent < commitPre g then .panic
      else
        match processWith (fun gg => applyChangesG resize fuel gg) resize
            (commitTarget g).orientation.axis g.orientation.axis
            (commitQ g) (commitTarget g).secondaryExtent
            (commitRescale g) (commitOldTotal g)
            g.nodes g.additions 0 (commitPre g) with
        | .fuelOut => .fuelOut
        | .panic => .panic
        | .done (ns, total', .ok _) =>
            .done ({ commitTarget g with nodes := ns, total_node_primary := total' },
              .ok ())
        | .done (ns, _, .error e) =>
            .done ({ commitTarget g with nodes := ns }, .error e)

/-! ### Concrete fixtures used by witnesses and counterexamples -/

/-- A resize callback that always succeeds. -/
def resizeOk : Nat → Nat → Nat → Except Unit Unit := fun _ _ _ => .ok ()

/-- A resize callback that fails (with error `1`) exactly on window `5`. -/
def resizeFail5 : Nat → Nat → Nat → Except Nat Unit :=
  fun w _ _ => if w = 5 then .error 1 else .ok ()

/-- A fresh left-to-right group, `100 × 50`. -/
def c3Group : GroupNode Nat := GroupNodeF.new .leftToRight 100 50

/-- A left-to-right group with one committed child but a *pending*
right-to-left orientation, so its effective orientation is reversed. -/
def c4Group : GroupNode Nat :=
  { orientation := .leftToRight, nodes := [Node.new_window 1 5 5],
    total_node_primary := 5, additions := [], total_removed_primary := 0,
    new_orientation := some .rightToLeft, new_width := none, new_height := none,
    width := 10, height := 10 }

/-- A committed right-to-left (reversed) group with two children of
distinct widths. -/
def c9GroupA : GroupNode Nat :=
  { orientation := .rightToLeft,
    nodes := [Node.new_window 1 10 30, Node.new_window 2 20 30],
    total_node_primary := 30, additions := [], total_removed_primary := 0,
    new_orientation := none, new_width := none, new_height := none,
    width := 30, height := 30 }

/-- A left-to-right group with one `10 × 20` child and a *pending*
top-to-bottom orientation (effective axis vertical, committed axis
horizontal). -/
def c9GroupB : GroupNode Nat :=
  { orientation := .leftToRight, nodes := [Node.new_window 3 10 20],
    total_node_primary := 10, additions := [], total_removed_primary := 0,
    new_orientation := some .topToBottom, new_width := none, new_height := none,
    width := 10, height := 20 }

/-- An empty group with a reversed orientation. -/
def c7Empty : GroupNode Nat := GroupNodeF.new .rightToLeft 40 40

/-- A reversed group with a single child. -/
def c7One : GroupNode Nat := (GroupNodeF.new .rightToLeft 40 40).push_window 9

/-- An empty group with a pending width change (so `changes_made` holds). -/
def c8Group : GroupNode Nat :=
  { orientation := .leftToRight, nodes := [], total_node_primary := 0,
    additions := [], total_removed_primary := 0,
    new_orientation := none, new_width := some 5, new_height := none,
    width := 10, height := 10 }

/-- A group with one `100 × 50` window child and a pending height change
whose commit re-assigns the child exactly its old extents. -/
def c10Group : GroupNode Nat :=
  { orientation := .leftToRight, nodes := [Node.new_window 5 100 50],
    total_node_primary := 100, additions := [], total_removed_primary := 0,
    new_orientation := none, new_width := none, new_height := some 50,
    width := 100, height := 50 }

/-- The state `c10Group` is left in by its failing commit: the pending log
is cleared, the child was re-assigned `100 × 50` before its resize
callback failed, and `total_node_primary` still holds `100`. -/
def c10After : GroupNode Nat :=
  { orientation := .leftToRight, nodes := [Node.new_window 5 100 50],
    total_node_primary := 100, additions := [], total_removed_primary := 0,
    new_orientation := none, new_width := none, new_height := none,
    width := 100, height := 50 }

/-! ### C3 — `rotate_by` -/

/-- C3: the claim says `rotate_by(n)` advances the orientation `n` steps
clockwise through the 4-cycle using Euclidean modulo 4, without panicking,
with `rotate_by(4)` a no-op.  The code instead feeds `current + rotations`
to `div_euclid(4)` — the Euclidean *quotient* — so on a left-to-right
group `rotate_by 1` sets the orientation to left-to-right again (no
rotation), `rotate_by 4` rotates one step to top-to-bottom (not a no-op),
and `rotate_by (-1)` reaches the `unreachable!` arm and panics.  The
code's own `unreachable!` message, ".div_euclid(4) returns a value within
0..4", is the contract of `rem_euclid`, not `div_euclid`. -/
theorem rotate_by_uses_div_euclid :
    c3Group.rotate_by 1 = some (c3Group.set_orientation .leftToRight) ∧
    c3Group.rotate_by 4 = some (c3Group.set_orientation .topToBottom) ∧
    c3Group.rotate_by (-1) = none :=
  ⟨rfl, rfl, rfl⟩

/-! ### C5 — `Deref for TilingLayout` -/

/-- C5: dereferencing a `TilingLayout` never terminates, and in particular
never yields its root `GroupNode`: the source's `deref` body returns
`self`, whose conversion from `&TilingLayout` to `&GroupNode` is the deref
coercion — a call to `deref` itself.  For every recursion-depth budget the
evaluation fails to produce a result (contrast `TilingLayout.borrowRoot`,
the `Borrow` impl, which returns the root directly). -/
theorem deref_never_yields_root :
    ∀ (fuel : Nat) (t : TilingLayout W), t.derefFuel fuel = none := by
  intro fuel
  induction fuel with
  | zero => intro t; rfl
  | succ n ih => intro t; exact ih t

/-! ### C4 — `push_node` and the effective orientation -/

/-- C4 counterexample: `c4Group`'s *effective* orientation (pending
right-to-left) is reversed, so the claim requires `push_window` to insert
the new node at storage slot 0; the code consults the *committed*
orientation field (left-to-right, not reversed) and appends at the back
instead. -/
theorem push_window_pending_orientation_cx :
    c4Group.effectiveOrientation.reversed = true ∧
    (c4Group.push_window 2).nodes = c4Group.nodes ++ [Node.new_window 2 0 0] ∧
    (c4Group.push_window 2).nodes ≠ Node.new_window 2 0 0 :: c4Group.nodes := by
  refine ⟨rfl, rfl, ?_⟩
  intro h
  simp [c4Group, GroupNodeF.push_window, GroupNodeF.push_node,
    GroupNodeF.track_push, Orientation.reversed, Node.new_window] at h

/-- C4 amended: `push_window`/`push_group` insert the new zero-sized node
at storage slot 0 when the *committed* `orientation` field (not the
effective orientation) is reversed, and append at the back of storage
otherwise. -/
theorem push_node_uses_committed_orientation :
    ∀ (g : GroupNode W) (w : W) (o : Orientation),
      (g.push_window w).nodes =
        (if g.orientation.reversed = true then Node.new_window w 0 0 :: g.nodes
         else g.nodes ++ [Node.new_window w 0 0]) ∧
      (g.push_group o).nodes =
        (if g.orientation.reversed = true then Node.new_group o 0 0 :: g.nodes
         else g.nodes ++ [Node.new_group o 0 0]) := by
  intro g w o
  constructor <;>
    · simp only [GroupNodeF.push_window, GroupNodeF.push_group, GroupNodeF.push_node]
      cases hrev : g.orientation.reversed <;> simp [hrev]

/-! ### C9 — `remove` -/

/-- C9 counterexample.  On `c9GroupA` (reversed, two children) logical
index 0 is storage slot 1 (window 2), yet `remove 0` detaches the node at
storage slot 0 (window 1): no reversed-index transform is applied.  On
`c9GroupB` the orientation in effect per the claim (`new_orientation`
pending: top-to-bottom, vertical axis) gives the child a primary extent of
20, yet the code adds 10 — the extent along the *committed* horizontal
axis — to `total_removed_primary`. -/
theorem remove_transform_axis_cx :
    (c9GroupA.remove 0).map (fun x => x.fst) = some (Node.new_window 1 10 30) ∧
    (Node.new_window 1 10 30 : Node Nat) ≠ Node.new_window 2 20 30 ∧
    (c9GroupB.remove 0).map (fun x => x.snd.total_removed_primary) = some 10 ∧
    Node.primary (Node.new_window 3 10 20) c9GroupB.effectiveOrientation.axis = 20 ∧
    (10 : Nat) ≠ 20 := by
  refine ⟨rfl, ?_, rfl, rfl, by decide⟩
  intro h
  simp [Node.new_window] at h

/-- C9 amended: for every in-range index `i`, `remove i` detaches and
returns the child at *storage* index `i` (which coincides with logical
index `i` exactly when the effective orientation is not reversed), updates
`additions` through `track_remove`, and adds the detached child's primary
extent measured along the axis of the *committed* `orientation` field to
`total_removed_primary`. -/
theorem remove_detaches_storage_index :
    ∀ (g : GroupNode W) (i : Nat) (h : i < g.nodes.length),
      g.remove i = some (g.nodes.get ⟨i, h⟩,
        { g with nodes := g.nodes.eraseIdx i,
                 additions := GroupNodeF.track_remove i g.additions,
                 total_removed_primary := g.total_removed_primary +
                   (g.nodes.get ⟨i, h⟩).primary g.orientation.axis }) ∧
      (g.effectiveOrientation.reversed = false →
        g.get i = some (some (g.nodes.get ⟨i, h⟩))) := by
  intro g i h
  constructor
  · simp [GroupNodeF.remove, h]
  · intro hrev
    simp [GroupNodeF.get, hrev, h]

/-- Witness for `remove_detaches_storage_index` at `c9GroupA`, index 1. -/
theorem remove_detaches_storage_index_witness :
    c9GroupA.remove 1 = some (Node.new_window 2 20 30,
      { c9GroupA with nodes := [Node.new_window 1 10 30],
                      additions := [], total_removed_primary := 20 }) := by
  have h := remove_detaches_storage_index c9GroupA 1 (by decide)
  exact h.1

/-! ### C7 — `get` / `get_mut` -/

/-- C7 counterexample: the claim says `get i` returns `None` without
panicking whenever `i ≥ n`, *including on an empty group and under
reversed effective orientations*.  On the empty reversed group `c7Empty`,
and on the one-child reversed group `c7One` at index 5, the source
computes `nodes.len() - 1 - index`, whose unsigned subtraction underflows:
a panic under Rust's checked arithmetic (modelled as the outer `none`),
not a `None` return (which would be `some none`). -/
theorem get_reversed_out_of_range_cx :
    c7Empty.get 0 = none ∧ c7One.get 5 = none ∧ c7Empty.get_mut 0 = none :=
  ⟨rfl, rfl, rfl⟩

/-- C7 amended: under a non-reversed effective orientation `get i` returns
the node at storage index `i`, or `None` when `i ≥ n`, without panicking;
under a reversed effective orientation an in-range `i` yields the node at
storage index `n - 1 - i`, while `i ≥ n` (including every access to an
empty group) underflows in the `n - 1 - i` computation — a panic under
checked arithmetic (under release-mode wrapping the huge wrapped index
fails the bounds test and `None` is returned).  `get_mut` shares the index
logic of `get` exactly. -/
theorem get_logical_indexing :
    ∀ (g : GroupNode W) (i : Nat),
      (g.effectiveOrientation.reversed = false → g.get i = some g.nodes[i]?) ∧
      (g.effectiveOrientation.reversed = true →
        ((hlt : i < g.nodes.length) →
          g.get i = some (some (g.nodes.get ⟨g.nodes.length - 1 - i, by omega⟩))) ∧
        (g.nodes.length ≤ i → g.get i = none)) ∧
      g.get_mut i = g.get i := by
  intro g i
  refine ⟨?_, fun hrev => ⟨?_, ?_⟩, rfl⟩
  · intro hrev
    by_cases hlt : i < g.nodes.length
    · simp [GroupNodeF.get, hrev, hlt, List.getElem?_eq_getElem]
    · have hnone : g.nodes[i]? = none := List.getElem?_eq_none (Nat.le_of_not_lt hlt)
      simp [GroupNodeF.get, hrev, hlt, hnone]
  · intro hlt
    have hz : ¬ g.nodes.length = 0 := by omega
    have hle : i ≤ g.nodes.length - 1 := by omega
    simp [GroupNodeF.get, hrev, hz, hle]
  · intro hge
    rcases Nat.eq_zero_or_pos g.nodes.length with hz | hpos
    · simp [GroupNodeF.get, hrev, hz]
    · have hz : ¬ g.nodes.length = 0 := by omega
      have hle : ¬ i ≤ g.nodes.length - 1 := by omega
      simp [GroupNodeF.get, hrev, hz, hle]

/-- Witness for `get_logical_indexing` on `c9GroupA` (reversed, two
children): logical index 0 is storage slot 1, and index 7 panics. -/
theorem get_logical_indexing_witness :
    c9GroupA.get 0 = some (some (Node.new_window 2 20 30)) ∧
    c9GroupA.get 7 = none := by
  have h := get_logical_indexing c9GroupA 0
  have h7 := get_logical_indexing c9GroupA 7
  exact ⟨(h.2.1 rfl).1 (by decide), (h7.2.1 rfl).2 (by decide)⟩

/-! ### C8 — empty-group commit -/

/-- C8: the claim says `apply_changes` guards the
`group_primary / node_count` division against a zero divisor.  It does
not: for every group with pending changes and zero children the pass
reaches `group_primary / (self.nodes.len() as u32)` with `len() = 0` and
panics (integer division by zero panics in Rust in every build mode). -/
theorem apply_changes_empty_group_panics :
    ∀ (resize : W → Nat → Nat → Except E Unit) (fuel : Nat) (g : GroupNode W),
      g.nodes = [] → g.changes_made = true →
      applyChangesG resize (fuel + 1) g = Run.panic := by
  intro resize fuel g hnil hch
  simp only [applyChangesG, hch]
  have hlen : g.nodes.length = 0 := by simp [hnil]
  by_cases hrm : g.total_node_primary < g.total_removed_primary <;>
    simp [hrm, hlen]

/-- Witness for `apply_changes_empty_group_panics`: the empty group
`c8Group` with a pending width change panics at once. -/
theorem apply_changes_empty_group_panics_witness :
    applyChangesG resizeOk 1 c8Group = Run.panic :=
  apply_changes_empty_group_panics resizeOk 0 c8Group rfl rfl

/-! ### Inversion of the commit pass on a callback error -/

/-- The pending mutation log of `g` is empty. -/
def pendingCleared (g : GroupNode W) : Prop :=
  g.additions = [] ∧ g.total_removed_primary = 0 ∧
    g.new_orientation = none ∧ g.new_width = none ∧ g.new_height = none

theorem pendingCleared_commitTarget (g : GroupNode W) :
    pendingCleared (commitTarget g) :=
  ⟨rfl, rfl, rfl, rfl, rfl⟩

/-- Inversion: a run of `apply_changes` that finished with a callback error
came either from the no-pending-changes recursion or from the resize walk,
and in the latter case the resulting group is the cleared-and-updated
`commitTarget` with the partially processed children and the *old*
`total_node_primary`. -/
theorem applyChangesG_error_inv {E : Type}
    (resize : W → Nat → Nat → Except E Unit) (fuel : Nat)
    (g g' : GroupNode W) (e : E)
    (hrun : applyChangesG resize fuel g = Run.done (g', Except.error e)) :
    ∃ f', fuel = f' + 1 ∧
      ((g.changes_made = false ∧ ∃ ns,
          recurseWith (fun gg => applyChangesG resize f' gg) g.nodes
            = Run.done (ns, Except.error e) ∧ g' = { g with nodes := ns }) ∨
       (g.changes_made = true ∧ ∃ ns acc,
          processWith (fun gg => applyChangesG resize f' gg) resize
            (commitTarget g).orientation.axis g.orientation.axis
            (commitQ g) (commitTarget g).secondaryExtent
            (commitRescale g) (commitOldTotal g) g.nodes g.additions 0 (commitPre g)
            = Run.done (ns, acc, Except.error e) ∧
          g' = { commitTarget g with nodes := ns })) := by
  cases fuel with
  | zero => exact Run.noConfusion hrun
  | succ f' =>
    refine ⟨f', rfl, ?_⟩
    simp only [applyChangesG] at hrun
    split at hrun
    · -- no pending changes
      next hch =>
      left
      refine ⟨hch, ?_⟩
      split at hrun
      · exact Run.noConfusion hrun
      · exact Run.noConfusion hrun
      · next ns st heq =>
        simp only [Run.done.injEq, Prod.mk.injEq] at hrun
        obtain ⟨hg, hst⟩ := hrun
        subst hst
        exact ⟨ns, heq, hg.symm⟩
    · -- pending changes
      next hch =>
      right
      have hch' : g.changes_made = true := by
        revert hch; cases g.changes_made <;> simp
      refine ⟨hch', ?_⟩
      split at hrun
      · exact Run.noConfusion hrun
      · split at hrun
        · exact Run.noConfusion hrun
        · split at hrun
          · exact Run.noConfusion hrun
          · split at hrun
            · exact Run.noConfusion hrun
            · exact Run.noConfusion hrun
            · simp at hrun
            · next ns acc e' heq =>
              simp only [Run.done.injEq, Prod.mk.injEq, Except.error.injEq] at hrun
              obtain ⟨hg, he⟩ := hrun
              subst he
              exact ⟨ns, acc, heq, hg.symm⟩

/-! ### C10 — `total_node_primary` after a failed commit -/

/-- C10 counterexample: the claim's final clause says that after a
callback failure `total_node_primary` *no longer equals* the sum of the
children's primary extents.  On `c10Group` the failing commit re-assigns
the only child exactly its old `100 × 50` extents before the callback
fails, so the retained `total_node_primary` (100) still equals the sum of
the children's primary extents (100). -/
theorem total_still_matches_after_failure_cx :
    applyChangesG resizeFail5 1 c10Group = Run.done (c10After, Except.error 1) ∧
    c10After.total_node_primary
      = (c10After.nodes.map (fun n => n.primary c10After.orientation.axis)).sum :=
  ⟨rfl, rfl⟩

/-- C10 amended: when `apply_changes` returns a callback error, the
returned group's `total_node_primary` retains its pre-commit value — the
end-of-pass store of the accumulated total is skipped — even though
children processed before the failure have already been assigned new
extents; consequently `total_node_primary` need no longer equal the sum of
the children's primary extents (though the two can still coincide). -/
theorem total_node_primary_kept_on_failure {E : Type}
    (resize : W → Nat → Nat → Except E Unit) (fuel : Nat)
    (g g' : GroupNode W) (e : E)
    (hrun : applyChangesG resize fuel g = Run.done (g', Except.error e)) :
    g'.total_node_primary = g.total_node_primary := by
  obtain ⟨f', -, h | h⟩ := applyChangesG_error_inv resize fuel g g' e hrun
  · obtain ⟨-, ns, -, hg⟩ := h
    rw [hg]
  · obtain ⟨-, ns, acc, -, hg⟩ := h
    rw [hg]
    rfl

/-- Witness for `total_node_primary_kept_on_failure` at `c10Group`. -/
theorem total_node_primary_kept_on_failure_witness :
    c10After.total_node_primary = c10Group.total_node_primary :=
  total_node_primary_kept_on_failure resizeFail5 1 c10Group c10After 1 rfl

/-- Inversion of the resize walk on a callback error: some index `j` is
the first failure — every child before `j` was processed successfully and
kept in its processed (newly assigned) state, child `j`'s processing
produced exactly the returned error, and every child after `j` is
untouched. -/
theorem processWith_error_inv {E : Type}
    (applyG : GroupNode W → Run (GroupNode W × Except E Unit))
    (resize : W → Nat → Nat → Except E Unit) (newAxis oldAxis : Axis)
    (q gs rescale oldTotal : Nat) :
    ∀ (ns : List (Node W)) (adds : List Nat) (idx acc : Nat)
      (ns' : List (Node W)) (acc' : Nat) (e : E),
      processWith applyG resize newAxis oldAxis q gs rescale oldTotal
          ns adds idx acc = Run.done (ns', acc', Except.error e) →
      ns'.length = ns.length ∧
      ∃ j, j < ns.length ∧
        (∀ k, j < k → ns'[k]? = ns[k]?) ∧
        (∀ k, k < j → ∃ p n0 n1, ns[k]? = some n0 ∧ ns'[k]? = some n1 ∧
          applyNodeWith applyG resize n0 p gs newAxis = Run.done (n1, Except.ok ())) ∧
        (∃ p n0 n1, ns[j]? = some n0 ∧ ns'[j]? = some n1 ∧
          applyNodeWith applyG resize n0 p gs newAxis
            = Run.done (n1, Except.error e)) := by
  intro ns
  induction ns with
  | nil =>
    intro adds idx acc ns' acc' e h
    simp [processWith] at h
  | cons n rest ih =>
    intro adds idx acc ns' acc' e h
    simp only [processWith] at h
    -- For both the addition path and the rescale path the shape is the
    -- same: a first `applyNodeWith` call, then the recursive walk.
    have main :
        ∀ (p : Nat) (adds2 : List Nat) (acc2 : Nat),
          (match applyNodeWith applyG resize n p gs newAxis with
            | .fuelOut => .fuelOut
            | .panic => .panic
            | .done (n', .error e0) => Run.done (n' :: rest, acc, Except.error e0)
            | .done (n', .ok _) =>
                match processWith applyG resize newAxis oldAxis q gs rescale
                    oldTotal rest adds2 (idx + 1) acc2 with
                  | .fuelOut => .fuelOut
                  | .panic => .panic
                  | .done (ns1, acc1, st) => Run.done (n' :: ns1, acc1, st))
            = Run.done (ns', acc', Except.error e) →
          (ns'.length = (n :: rest).length ∧
            ∃ j, j < (n :: rest).length ∧
              (∀ k, j < k → ns'[k]? = (n :: rest)[k]?) ∧
              (∀ k, k < j → ∃ p0 n0 n1, (n :: rest)[k]? = some n0 ∧
                ns'[k]? = some n1 ∧
                applyNodeWith applyG resize n0 p0 gs newAxis
                  = Run.done (n1, Except.ok ())) ∧
              (∃ p0 n0 n1, (n :: rest)[j]? = some n0 ∧ ns'[j]? = some n1 ∧
                applyNodeWith applyG resize n0 p0 gs newAxis
                  = Run.done (n1, Except.error e))) := by
      intro p adds2 acc2 hm
      cases happ : applyNodeWith applyG resize n p gs newAxis with
      | fuelOut => rw [happ] at hm; exact Run.noConfusion hm
      | panic => rw [happ] at hm; exact Run.noConfusion hm
      | done v =>
        obtain ⟨n', st0⟩ := v
        rw [happ] at hm
        cases st0 with
        | error e0 =>
          simp only [Run.done.injEq, Prod.mk.injEq, Except.error.injEq] at hm
          obtain ⟨hns, -, he⟩ := hm
          subst he
          subst hns
          refine ⟨rfl, 0, by simp, ?_, ?_, ?_⟩
          · intro k hk
            match k, hk with
            | k + 1, _ => simp
          · intro k hk; omega
          · exact ⟨p, n, n', by simp, by simp, happ⟩
        | ok u =>
          cases hrec : processWith applyG resize newAxis oldAxis q gs rescale
              oldTotal rest adds2 (idx + 1) acc2 with
          | fuelOut => rw [hrec] at hm; exact Run.noConfusion hm
          | panic => rw [hrec] at hm; exact Run.noConfusion hm
          | done v1 =>
            obtain ⟨ns1, acc1, st1⟩ := v1
            rw [hrec] at hm
            simp only [Run.done.injEq, Prod.mk.injEq] at hm
            obtain ⟨hns, -, hst⟩ := hm
            subst hst
            subst hns
            obtain ⟨hlen, j, hj, hsuffix, hfront, hfail⟩ :=
              ih adds2 (idx + 1) acc2 ns1 acc1 e hrec
            refine ⟨by simp [hlen], j + 1, by simp; omega, ?_, ?_, ?_⟩
            · intro k hk
              match k, hk with
              | k + 1, hk => simpa using hsuffix k (by omega)
            · intro k hk
              match k with
              | 0 => exact ⟨p, n, n', by simp, by simp, by cases u; exact happ⟩
              | k + 1 =>
                obtain ⟨p0, n0, n1, h0, h1, h2⟩ := hfront k (by omega)
                exact ⟨p0, n0, n1, by simpa using h0, by simpa using h1, h2⟩
            · obtain ⟨p0, n0, n1, h0, h1, h2⟩ := hfail
              exact ⟨p0, n0, n1, by simpa using h0, by simpa using h1, h2⟩
    split at h
    · exact main q adds.tail acc h
    · split at h
      · exact Run.noConfusion h
      · exact main (n.primary oldAxis * rescale / oldTotal) adds
          (acc + n.primary oldAxis * rescale / oldTotal) h

/-! ### C6 — fail-fast, no-rollback commit -/

/-- A group with two `60 × 40` window children (windows 1 and 5) and a
pending height change; committing it with `resizeFail5` succeeds on window
1 and fails on window 5. -/
def c6Group : GroupNode Nat :=
  { orientation := .leftToRight,
    nodes := [Node.new_window 1 60 40, Node.new_window 5 60 40],
    total_node_primary := 120, additions := [], total_removed_primary := 0,
    new_orientation := none, new_width := none, new_height := some 40,
    width := 120, height := 40 }

/-- The state `c6Group` is left in by its failing commit. -/
def c6After : GroupNode Nat :=
  { orientation := .leftToRight,
    nodes := [Node.new_window 1 60 40, Node.new_window 5 60 40],
    total_node_primary := 120, additions := [], total_removed_primary := 0,
    new_orientation := none, new_width := none, new_height := none,
    width := 120, height := 40 }

/-- C6: when the resize callback fails during a commit of a group with
pending changes, `apply_changes` returns exactly the error of the first
failing child — there is an index `j` such that every child before `j` was
processed successfully and keeps its processed (newly assigned) state,
child `j`'s processing produced the returned error, and every child after
`j` is untouched (no rollback anywhere) — and the group's pending mutation
log (`additions`, `total_removed_primary`, `new_orientation`, `new_width`,
`new_height`) has already been cleared, so the abandoned portion is not
retried. -/
theorem commit_failure_fail_fast {E : Type}
    (resize : W → Nat → Nat → Except E Unit) (fuel : Nat)
    (g g' : GroupNode W) (e : E)
    (hch : g.changes_made = true)
    (hrun : applyChangesG resize fuel g = Run.done (g', Except.error e)) :
    pendingCleared g' ∧
    g'.nodes.length = g.nodes.length ∧
    ∃ f' j, fuel = f' + 1 ∧ j < g.nodes.length ∧
      (∀ k, j < k → g'.nodes[k]? = g.nodes[k]?) ∧
      (∀ k, k < j → ∃ p n0 n1, g.nodes[k]? = some n0 ∧ g'.nodes[k]? = some n1 ∧
        applyNodeWith (fun gg => applyChangesG resize f' gg) resize n0 p
          (commitTarget g).secondaryExtent (commitTarget g).orientation.axis
          = Run.done (n1, Except.ok ())) ∧
      (∃ p n0 n1, g.nodes[j]? = some n0 ∧ g'.nodes[j]? = some n1 ∧
        applyNodeWith (fun gg => applyChangesG resize f' gg) resize n0 p
          (commitTarget g).secondaryExtent (commitTarget g).orientation.axis
          = Run.done (n1, Except.error e)) := by
  obtain ⟨f', hf, hcase⟩ := applyChangesG_error_inv resize fuel g g' e hrun
  rcases hcase with ⟨hfalse, -⟩ | ⟨-, ns, acc, hproc, hg⟩
  · rw [hch] at hfalse; exact Bool.noConfusion hfalse
  · obtain ⟨hlen, j, hj, hsuf, hpre, hfail⟩ :=
      processWith_error_inv _ resize _ _ _ _ _ _ g.nodes g.additions 0
        (commitPre g) ns acc e hproc
    subst hg
    exact ⟨⟨rfl, rfl, rfl, rfl, rfl⟩, hlen, f', j, hf, hj, hsuf, hpre, hfail⟩

/-- Witness for `commit_failure_fail_fast` on `c6Group` with
`resizeFail5`: the commit fails at child 1 with error 1. -/
theorem commit_failure_fail_fast_witness :
    pendingCleared c6After ∧
    c6After.nodes.length = c6Group.nodes.length ∧
    ∃ f' j, (1 : Nat) = f' + 1 ∧ j < c6Group.nodes.length ∧
      (∀ k, j < k → c6After.nodes[k]? = c6Group.nodes[k]?) ∧
      (∀ k, k < j → ∃ p n0 n1, c6Group.nodes[k]? = some n0 ∧
        c6After.nodes[k]? = some n1 ∧
        applyNodeWith (fun gg => applyChangesG resizeFail5 f' gg) resizeFail5 n0 p
          (commitTarget c6Group).secondaryExtent
          (commitTarget c6Group).orientation.axis
          = Run.done (n1, Except.ok ())) ∧
      (∃ p n0 n1, c6Group.nodes[j]? = some n0 ∧ c6After.nodes[j]? = some n1 ∧
        applyNodeWith (fun gg => applyChangesG resizeFail5 f' gg) resizeFail5 n0 p
          (commitTarget c6Group).secondaryExtent
          (commitTarget c6Group).orientation.axis
          = Run.done (n1, Except.error 1)) :=
  commit_failure_fail_fast resizeFail5 1 c6Group c6After 1 rfl rfl

/-! ### C2 — proportional rescale -/

/-- Setting a node's primary then secondary extent along an axis yields a
node with exactly those extents along that axis. -/
theorem set_dims_spec (n : Node W) (p s : Nat) (axis : Axis) :
    ((n.set_primary p axis).set_secondary s axis).primary axis = p ∧
    ((n.set_primary p axis).set_secondary s axis).secondary axis = s := by
  cases axis <;> cases n <;>
    simp [Node.set_primary, Node.set_secondary, Node.set_width,
      Node.set_height, Node.primary, Node.secondary, Node.width, Node.height]

/-- A child through which a parent-assigned size survives its own
recursive commit: a window, or a group with no pending width/height change
of its own. -/
def nodeKeepsAssignedSize : Node W → Prop
  | .window _ => True
  | .group gg => gg.new_width = none ∧ gg.new_height = none

/-- A group with no pending width/height change keeps its own width and
height through `apply_changes` (the pass only rewrites them from
`new_width`/`new_height`). -/
theorem applyChangesG_keeps_own_size {E : Type}
    (resize : W → Nat → Nat → Except E Unit) (fuel : Nat)
    (gg gg' : GroupNode W) (st : Except E Unit)
    (hw : gg.new_width = none) (hh : gg.new_height = none)
    (hrun : applyChangesG resize fuel gg = Run.done (gg', st)) :
    gg'.width = gg.width ∧ gg'.height = gg.height := by
  cases fuel with
  | zero => exact Run.noConfusion hrun
  | succ f' =>
    simp only [applyChangesG] at hrun
    split at hrun
    · split at hrun
      · exact Run.noConfusion hrun
      · exact Run.noConfusion hrun
      · simp only [Run.done.injEq, Prod.mk.injEq] at hrun
        rw [← hrun.1]
        exact ⟨rfl, rfl⟩
    · split at hrun
      · exact Run.noConfusion hrun
      · split at hrun
        · exact Run.noConfusion hrun
        · split at hrun
          · exact Run.noConfusion hrun
          · split at hrun
            · exact Run.noConfusion hrun
            · exact Run.noConfusion hrun
            · simp only [Run.done.injEq, Prod.mk.injEq] at hrun
              rw [← hrun.1]
              exact ⟨by simp [commitTarget, hw], by simp [commitTarget, hh]⟩
            · simp only [Run.done.injEq, Prod.mk.injEq] at hrun
              rw [← hrun.1]
              exact ⟨by simp [commitTarget, hw], by simp [commitTarget, hh]⟩

/-- When `set_node_dimensions` succeeds on a child whose own commit cannot
override the parent-assigned size, the resulting child has exactly the
assigned primary and secondary extents. -/
theorem applyNodeWith_dims {E : Type}
    (applyG : GroupNode W → Run (GroupNode W × Except E Unit))
    (resize : W → Nat → Nat → Except E Unit)
    (n n' : Node W) (p s : Nat) (axis : Axis) (st : Except E Unit)
    (hkeep : nodeKeepsAssignedSize n)
    (hpres : ∀ gg gg' st0, gg.new_width = none → gg.new_height = none →
      applyG gg = Run.done (gg', st0) → gg'.width = gg.width ∧ gg'.height = gg.height)
    (h : applyNodeWith applyG resize n p s axis = Run.done (n', st)) :
    n'.primary axis = p ∧ n'.secondary axis = s := by
  cases n with
  | window wn =>
    cases axis <;>
      · simp only [applyNodeWith, Node.set_primary, Node.set_secondary,
          Node.set_width, Node.set_height] at h
        simp only [Run.done.injEq, Prod.mk.injEq] at h
        rw [← h.1]
        simp [Node.primary, Node.secondary, Node.width, Node.height]
  | group gg =>
    obtain ⟨hw, hh⟩ := hkeep
    cases axis <;>
      · simp only [applyNodeWith, Node.set_primary, Node.set_secondary,
          Node.set_width, Node.set_height] at h
        split at h
        · exact Run.noConfusion h
        · exact Run.noConfusion h
        · next gg' st0 happ =>
          simp only [Run.done.injEq, Prod.mk.injEq] at h
          obtain ⟨hsz1, hsz2⟩ := hpres _ gg' st0 (by simpa using hw)
            (by simpa using hh) happ
          rw [← h.1]
          simp only [Node.primary, Node.secondary, Node.width, Node.height]
          simp_all

/-- Sum of the primary extents along `axis` of a list of nodes. -/
def sumPrimaries (axis : Axis) (ns : List (Node W)) : Nat :=
  (ns.map (fun n => n.primary axis)).sum

/-- Sum of the primary extents along `oldAxis` of the non-addition ("old")
children of the walk of `ns` starting at position `idx` with
pending-addition indices `adds`. -/
def oldPrimarySum (oldAxis : Axis) : List (Node W) → List Nat → Nat → Nat
  | [], _, _ => 0
  | n :: rest, adds, idx =>
    if adds.head? = some idx then oldPrimarySum oldAxis rest adds.tail (idx + 1)
    else n.primary oldAxis + oldPrimarySum oldAxis rest adds (idx + 1)

/-- Sum of the rescaled primary extents `pₖ * rescale / oldTotal` over the
old children of the walk. -/
def rescaledSum (oldAxis : Axis) (rescale oldTotal : Nat) :
    List (Node W) → List Nat → Nat → Nat
  | [], _, _ => 0
  | n :: rest, adds, idx =>
    if adds.head? = some idx then
      rescaledSum oldAxis rescale oldTotal rest adds.tail (idx + 1)
    else
      n.primary oldAxis * rescale / oldTotal
        + rescaledSum oldAxis rescale oldTotal rest adds (idx + 1)

theorem div_add_div_le (a b c : Nat) : a / c + b / c ≤ (a + b) / c := by
  rcases Nat.eq_zero_or_pos c with hc | hc
  · simp [hc]
  · rw [Nat.le_div_iff_mul_le hc, Nat.add_mul]
    exact Nat.add_le_add (Nat.div_mul_le_self a c) (Nat.div_mul_le_self b c)

/-- Floor division per child loses against the pooled division: the sum of
the rescaled extents is at most `oldPrimarySum * rescale / oldTotal`. -/
theorem rescaledSum_le (oldAxis : Axis) (rescale oldTotal : Nat) :
    ∀ (ns : List (Node W)) (adds : List Nat) (idx : Nat),
      rescaledSum oldAxis rescale oldTotal ns adds idx
        ≤ oldPrimarySum oldAxis ns adds idx * rescale / oldTotal := by
  intro ns
  induction ns with
  | nil => intro adds idx; simp [rescaledSum, oldPrimarySum]
  | cons n rest ih =>
    intro adds idx
    simp only [rescaledSum, oldPrimarySum]
    split
    · exact ih adds.tail (idx + 1)
    · calc n.primary oldAxis * rescale / oldTotal
            + rescaledSum oldAxis rescale oldTotal rest adds (idx + 1)
          ≤ n.primary oldAxis * rescale / oldTotal
            + oldPrimarySum oldAxis rest adds (idx + 1) * rescale / oldTotal :=
            Nat.add_le_add_left (ih adds (idx + 1)) _
      _ ≤ (n.primary oldAxis * rescale
            + oldPrimarySum oldAxis rest adds (idx + 1) * rescale) / oldTotal :=
            div_add_div_le _ _ _
      _ = (n.primary oldAxis + oldPrimarySum oldAxis rest adds (idx + 1))
            * rescale / oldTotal := by rw [Nat.add_mul]

/-- Characterisation of a *successful* resize walk: every child whose
position is a pending addition ends with primary extent `q`, every other
child ends rescaled to `pₖ * rescale / oldTotal`, every child gets
secondary extent `gs`, the accumulated total comes out as the pre-charged
`acc` plus the rescaled extents, and the sum of the resulting primary
extents is `adds.length * q` plus the rescaled extents. -/
theorem processWith_ok {E : Type}
    (applyG : GroupNode W → Run (GroupNode W × Except E Unit))
    (resize : W → Nat → Nat → Except E Unit) (newAxis oldAxis : Axis)
    (q gs rescale oldTotal : Nat)
    (hpres : ∀ gg gg' st0, gg.new_width = none → gg.new_height = none →
      applyG gg = Run.done (gg', st0) →
      gg'.width = gg.width ∧ gg'.height = gg.height) :
    ∀ (ns : List (Node W)) (adds : List Nat) (idx acc : Nat)
      (ns' : List (Node W)) (acc' : Nat),
      List.Sorted (· < ·) adds →
      (∀ a ∈ adds, idx ≤ a) →
      (∀ a ∈ adds, a < idx + ns.length) →
      (∀ n ∈ ns, nodeKeepsAssignedSize n) →
      processWith applyG resize newAxis oldAxis q gs rescale oldTotal
          ns adds idx acc = Run.done (ns', acc', Except.ok ()) →
      ns'.length = ns.length ∧
      (∀ k, k < ns.length → ∃ n0 n1, ns[k]? = some n0 ∧ ns'[k]? = some n1 ∧
        n1.secondary newAxis = gs ∧
        n1.primary newAxis =
          (if (idx + k) ∈ adds then q
           else n0.primary oldAxis * rescale / oldTotal)) ∧
      acc' = acc + rescaledSum oldAxis rescale oldTotal ns adds idx ∧
      sumPrimaries newAxis ns'
        = adds.length * q + rescaledSum oldAxis rescale oldTotal ns adds idx := by
  intro ns
  induction ns with
  | nil =>
    intro adds idx acc ns' acc' hsort hge hlt hkeep h
    have hadds : adds = [] := by
      cases adds with
      | nil => rfl
      | cons a t =>
        have h1 := hge a (by simp)
        have h2 := hlt a (by simp)
        simp only [List.length_nil] at h2
        omega
    subst hadds
    simp only [processWith, Run.done.injEq, Prod.mk.injEq] at h
    obtain ⟨hns, hacc, -⟩ := h
    subst hns
    refine ⟨rfl, ?_, by simp [rescaledSum, hacc.symm], by simp [sumPrimaries, rescaledSum]⟩
    intro k hk
    exact absurd hk (by simp)
  | cons n rest ih =>
    intro adds idx acc ns' acc' hsort hge hlt hkeep h
    simp only [processWith] at h
    rcases adds with _ | ⟨a, t⟩
    · -- no pending additions remain: the rescale path
      rw [if_neg (by simp)] at h
      by_cases hT : oldTotal = 0
      · rw [if_pos hT] at h; exact Run.noConfusion h
      · rw [if_neg hT] at h
        cases happ : applyNodeWith applyG resize n
            (n.primary oldAxis * rescale / oldTotal) gs newAxis with
        | fuelOut => rw [happ] at h; exact Run.noConfusion h
        | panic => rw [happ] at h; exact Run.noConfusion h
        | done v =>
          obtain ⟨n', st0⟩ := v
          rw [happ] at h
          cases st0 with
          | error e0 => simp at h
          | ok u =>
            cases u
            cases hrec : processWith applyG resize newAxis oldAxis q gs rescale
                oldTotal rest [] (idx + 1)
                (acc + n.primary oldAxis * rescale / oldTotal) with
            | fuelOut => rw [hrec] at h; exact Run.noConfusion h
            | panic => rw [hrec] at h; exact Run.noConfusion h
            | done v1 =>
              obtain ⟨ns1, acc1, st1⟩ := v1
              rw [hrec] at h
              simp only [Run.done.injEq, Prod.mk.injEq] at h
              obtain ⟨hns, hacc, hst⟩ := h
              subst hns
              subst hacc
              rw [hst] at hrec
              obtain ⟨hlen, hidxs, haccEq, hsum⟩ :=
                ih [] (idx + 1) (acc + n.primary oldAxis * rescale / oldTotal)
                  ns1 acc1 (by simp) (by simp) (by simp)
                  (fun m hm => hkeep m (List.mem_cons_of_mem _ hm)) hrec
              obtain ⟨hdp, hds⟩ := applyNodeWith_dims applyG resize n n' _ gs
                newAxis _ (hkeep n (by simp)) hpres happ
              refine ⟨by simp [hlen], ?_, ?_, ?_⟩
              · intro k hk
                match k with
                | 0 =>
                  refine ⟨n, n', by simp, by simp, hds, ?_⟩
                  rw [if_neg (by simp)]
                  exact hdp
                | k + 1 =>
                  obtain ⟨n0, n1, h0, h1, h2, h3⟩ := hidxs k (by simpa using hk)
                  refine ⟨n0, n1, by simpa using h0, by simpa using h1, h2, ?_⟩
                  rw [if_neg (by simp)]
                  rw [if_neg (by simp)] at h3
                  exact h3
              · rw [haccEq]
                simp only [rescaledSum, List.head?_nil]
                rw [if_neg (by simp)]
                omega
              · simp only [sumPrimaries, List.map_cons, List.sum_cons] at hsum ⊢
                rw [hsum, hdp]
                simp only [rescaledSum, List.head?_nil]
                rw [if_neg (by simp)]
                simp only [List.length_nil, Nat.zero_mul, Nat.zero_add]
    · -- pending additions remain
      by_cases ha : a = idx
      · -- the head addition is this very child
        subst ha
        rw [if_pos (by simp)] at h
        cases happ : applyNodeWith applyG resize n q gs newAxis with
        | fuelOut => rw [happ] at h; exact Run.noConfusion h
        | panic => rw [happ] at h; exact Run.noConfusion h
        | done v =>
          obtain ⟨n', st0⟩ := v
          rw [happ] at h
          cases st0 with
          | error e0 => simp at h
          | ok u =>
            cases u
            cases hrec : processWith applyG resize newAxis oldAxis q gs rescale
                oldTotal rest ((a :: t).tail) (a + 1) acc with
            | fuelOut => rw [hrec] at h; exact Run.noConfusion h
            | panic => rw [hrec] at h; exact Run.noConfusion h
            | done v1 =>
              obtain ⟨ns1, acc1, st1⟩ := v1
              rw [hrec] at h
              simp only [Run.done.injEq, Prod.mk.injEq] at h
              obtain ⟨hns, hacc, hst⟩ := h
              subst hns
              subst hacc
              rw [hst] at hrec
              simp only [List.tail_cons] at hrec
              have hsort' : List.Sorted (· < ·) t := (List.sorted_cons.mp hsort).2
              have hheadlt : ∀ b ∈ t, a < b := (List.sorted_cons.mp hsort).1
              obtain ⟨hlen, hidxs, haccEq, hsum⟩ :=
                ih t (a + 1) acc ns1 acc1 hsort'
                  (fun b hb => hheadlt b hb)
                  (fun b hb => by
                    have := hlt b (List.mem_cons_of_mem _ hb)
                    simp only [List.length_cons] at this
                    omega)
                  (fun m hm => hkeep m (List.mem_cons_of_mem _ hm)) hrec
              obtain ⟨hdp, hds⟩ := applyNodeWith_dims applyG resize n n' q gs
                newAxis _ (hkeep n (by simp)) hpres happ
              refine ⟨by simp [hlen], ?_, ?_, ?_⟩
              · intro k hk
                match k with
                | 0 =>
                  refine ⟨n, n', by simp, by simp, hds, ?_⟩
                  rw [if_pos (by simp)]
                  exact hdp
                | k + 1 =>
                  obtain ⟨n0, n1, h0, h1, h2, h3⟩ := hidxs k (by simpa using hk)
                  refine ⟨n0, n1, by simpa using h0, by simpa using h1, h2, ?_⟩
                  have hne : a + (k + 1) ≠ a := by omega
                  have hmem : (a + (k + 1)) ∈ a :: t ↔ ((a + 1) + k) ∈ t := by
                    simp only [List.mem_cons]
                    constructor
                    · rintro (hx | hx)
                      · exact absurd hx hne
                      · have : a + (k + 1) = (a + 1) + k := by omega
                        rwa [this] at hx
                    · intro hx
                      right
                      have : (a + 1) + k = a + (k + 1) := by omega
                      rwa [this] at hx
                  by_cases hm : ((a + 1) + k) ∈ t
                  · rw [if_pos (hmem.mpr hm)]
                    rw [if_pos hm] at h3
                    exact h3
                  · rw [if_neg (fun hx => hm (hmem.mp hx))]
                    rw [if_neg hm] at h3
                    exact h3
              · rw [haccEq]
                simp only [rescaledSum, List.head?_cons]
                rw [if_pos (by simp)]
                simp
              · simp only [sumPrimaries, List.map_cons, List.sum_cons] at hsum ⊢
                rw [hsum, hdp]
                simp only [rescaledSum, List.head?_cons]
                rw [if_pos (by simp)]
                simp only [List.length_cons, List.tail_cons]
                ring
      · -- the head addition is for a later child: rescale this one
        rw [if_neg (by simp [ha])] at h
        by_cases hT : oldTotal = 0
        · rw [if_pos hT] at h; exact Run.noConfusion h
        · rw [if_neg hT] at h
          cases happ : applyNodeWith applyG resize n
              (n.primary oldAxis * rescale / oldTotal) gs newAxis with
          | fuelOut => rw [happ] at h; exact Run.noConfusion h
          | panic => rw [happ] at h; exact Run.noConfusion h
          | done v =>
            obtain ⟨n', st0⟩ := v
            rw [happ] at h
            cases st0 with
            | error e0 => simp at h
            | ok u =>
              cases u
              cases hrec : processWith applyG resize newAxis oldAxis q gs rescale
                  oldTotal rest (a :: t) (idx + 1)
                  (acc + n.primary oldAxis * rescale / oldTotal) with
              | fuelOut => rw [hrec] at h; exact Run.noConfusion h
              | panic => rw [hrec] at h; exact Run.noConfusion h
              | done v1 =>
                obtain ⟨ns1, acc1, st1⟩ := v1
                rw [hrec] at h
                simp only [Run.done.injEq, Prod.mk.injEq] at h
                obtain ⟨hns, hacc, hst⟩ := h
                subst hns
                subst hacc
                rw [hst] at hrec
                have hheadlt : ∀ b ∈ t, a < b := (List.sorted_cons.mp hsort).1
                have hge' : ∀ b ∈ a :: t, idx + 1 ≤ b := by
                  intro b hb
                  rcases List.mem_cons.mp hb with hb | hb
                  · subst hb
                    have := hge b (by simp)
                    omega
                  · have h1 := hge a (by simp)
                    have h2 := hheadlt b hb
                    omega
                have hidxnot : idx ∉ a :: t := by
                  intro hx
                  have := hge' idx hx
                  omega
                obtain ⟨hlen, hidxs, haccEq, hsum⟩ :=
                  ih (a :: t) (idx + 1) (acc + n.primary oldAxis * rescale / oldTotal)
                    ns1 acc1 hsort hge'
                    (fun b hb => by
                      have := hlt b hb
                      simp only [List.length_cons] at this ⊢
                      omega)
                    (fun m hm => hkeep m (List.mem_cons_of_mem _ hm)) hrec
                obtain ⟨hdp, hds⟩ := applyNodeWith_dims applyG resize n n' _ gs
                  newAxis _ (hkeep n (by simp)) hpres happ
                refine ⟨by simp [hlen], ?_, ?_, ?_⟩
                · intro k hk
                  match k with
                  | 0 =>
                    refine ⟨n, n', by simp, by simp, hds, ?_⟩
                    rw [if_neg (by simpa using hidxnot)]
                    exact hdp
                  | k + 1 =>
                    obtain ⟨n0, n1, h0, h1, h2, h3⟩ := hidxs k (by simpa using hk)
                    refine ⟨n0, n1, by simpa using h0, by simpa using h1, h2, ?_⟩
                    have heq : (idx + 1) + k = idx + (k + 1) := by omega
                    rw [heq] at h3
                    exact h3
                · rw [haccEq]
                  simp only [rescaledSum, List.head?_cons]
                  rw [if_neg (by simp [ha])]
                  omega
                · simp only [sumPrimaries, List.map_cons, List.sum_cons] at hsum ⊢
                  rw [hsum, hdp]
                  simp only [rescaledSum, List.head?_cons]
                  rw [if_neg (by simp [ha])]
                  omega

/-- Inversion: a *successful* run of `apply_changes` on a group with
pending changes passed all panic checks, ran the resize walk successfully,
and stored the accumulated total. -/
theorem applyChangesG_ok_inv {E : Type}
    (resize : W → Nat → Nat → Except E Unit) (fuel : Nat)
    (g g' : GroupNode W)
    (hch : g.changes_made = true)
    (hrun : applyChangesG resize fuel g = Run.done (g', Except.ok ())) :
    ∃ f' ns acc, fuel = f' + 1 ∧
      g.total_removed_primary ≤ g.total_node_primary ∧
      g.nodes.length ≠ 0 ∧
      commitPre g ≤ (commitTarget g).primaryExtent ∧
      processWith (fun gg => applyChangesG resize f' gg) resize
        (commitTarget g).orientation.axis g.orientation.axis
        (commitQ g) (commitTarget g).secondaryExtent
        (commitRescale g) (commitOldTotal g) g.nodes g.additions 0 (commitPre g)
        = Run.done (ns, acc, Except.ok ()) ∧
      g' = { commitTarget g with nodes := ns, total_node_primary := acc } := by
  cases fuel with
  | zero => exact Run.noConfusion hrun
  | succ f' =>
    simp only [applyChangesG] at hrun
    split at hrun
    · next hf => rw [hch] at hf; exact Bool.noConfusion hf
    · split at hrun
      · exact Run.noConfusion hrun
      · split at hrun
        · exact Run.noConfusion hrun
        · split at hrun
          · exact Run.noConfusion hrun
          · next h1 h2 h3 =>
            split at hrun
            · exact Run.noConfusion hrun
            · exact Run.noConfusion hrun
            · next ns acc u heq =>
              simp only [Run.done.injEq, Prod.mk.injEq] at hrun
              refine ⟨f', ns, acc, rfl, by omega, h2, by omega, ?_, hrun.1.symm⟩
              cases u
              exact heq
            · next ns acc e heq =>
              simp at hrun

/-! #### C2 counterexample fixtures -/

/-- A child group occupying its parent's full width, with a *pending*
width change of its own (`new_width = 42`). -/
def c2Child : GroupNode Nat :=
  { orientation := .leftToRight, nodes := [Node.new_window 7 100 30],
    total_node_primary := 100, additions := [], total_removed_primary := 0,
    new_orientation := none, new_width := some 42, new_height := none,
    width := 100, height := 30 }

/-- A parent group (primary extent 100) with one old child — `c2Child` —
and pending changes (`total_removed_primary = 50`), whose baseline
`S = 150 - 50 = 100` equals the old child's primary extent. -/
def c2Parent : GroupNode Nat :=
  { orientation := .leftToRight, nodes := [Node.group c2Child],
    total_node_primary := 150, additions := [], total_removed_primary := 50,
    new_orientation := none, new_width := none, new_height := none,
    width := 100, height := 30 }

/-- `c2Child` after the commit: the parent assigned it `100 × 30`, but its
own recursive commit then applied its pending `new_width = 42`. -/
def c2ChildAfter : GroupNode Nat :=
  { orientation := .leftToRight, nodes := [Node.new_window 7 42 30],
    total_node_primary := 42, additions := [], total_removed_primary := 0,
    new_orientation := none, new_width := none, new_height := none,
    width := 42, height := 30 }

/-- `c2Parent` after the commit. -/
def c2ParentAfter : GroupNode Nat :=
  { orientation := .leftToRight, nodes := [Node.group c2ChildAfter],
    total_node_primary := 100, additions := [], total_removed_primary := 0,
    new_orientation := none, new_width := none, new_height := none,
    width := 100, height := 30 }

/-- C2 counterexample: on `c2Parent` every hypothesis of the claim holds
(`P = 100`, `k = 1`, `m = 0`, `S = total_node_primary -
total_removed_primary = 100 > 0` equals the old child's pre-commit primary
extent, and the commit succeeds), so the claim promises the old child a
post-commit primary extent of `floor(100 * (100 - 0) / 100) = 100`.  The
actual post-commit primary extent is 42: the child group's own recursive
commit applies its pending `new_width`, overriding the parent-assigned
extent. -/
theorem rescale_formula_child_override_cx :
    applyChangesG resizeOk 2 c2Parent = Run.done (c2ParentAfter, Except.ok ()) ∧
    commitOldTotal c2Parent = 100 ∧
    oldPrimarySum c2Parent.orientation.axis c2Parent.nodes c2Parent.additions 0
      = 100 ∧
    (commitTarget c2Parent).primaryExtent = 100 ∧
    sumPrimaries c2ParentAfter.orientation.axis c2ParentAfter.nodes = 42 ∧
    (42 : Nat) ≠ 100 :=
  ⟨rfl, rfl, rfl, rfl, rfl, by decide⟩

/-- C2 amended: the claim's formulas hold *provided every child that is
itself a group has no pending width/height change of its own* (in
particular when all children are windows).  For a group with pending
changes, well-formed sorted in-range `additions`, baseline
`S = total_node_primary - total_removed_primary > 0` equal to the sum of
the old children's primary extents along the pre-commit axis, a successful
`apply_changes` gives every pending addition primary extent
`floor(P / len)`, every old child `floor(p * (P - floor(P/len) * m) / S)`
(`P` the group's updated primary extent, `m` the number of additions,
`len = k + m` the child count), gives every child exactly the group's
updated secondary extent, stores the sum of the children's new primary
extents in `total_node_primary`, and that sum never exceeds `P`. -/
theorem commit_proportional_rescale {E : Type}
    (resize : W → Nat → Nat → Except E Unit) (fuel : Nat)
    (g g' : GroupNode W)
    (hch : g.changes_made = true)
    (hsort : List.Sorted (· < ·) g.additions)
    (hbound : ∀ a ∈ g.additions, a < g.nodes.length)
    (hkeep : ∀ n ∈ g.nodes, nodeKeepsAssignedSize n)
    (hS : oldPrimarySum g.orientation.axis g.nodes g.additions 0 = commitOldTotal g)
    (hSpos : 0 < commitOldTotal g)
    (hrun : applyChangesG resize fuel g = Run.done (g', Except.ok ())) :
    g'.nodes.length = g.nodes.length ∧
    (∀ k, k < g.nodes.length →
      ∃ n0 n1, g.nodes[k]? = some n0 ∧ g'.nodes[k]? = some n1 ∧
        n1.secondary (commitTarget g).orientation.axis
          = (commitTarget g).secondaryExtent ∧
        n1.primary (commitTarget g).orientation.axis
          = (if k ∈ g.additions then commitQ g
             else n0.primary g.orientation.axis * commitRescale g
                    / commitOldTotal g)) ∧
    g'.total_node_primary
      = sumPrimaries (commitTarget g).orientation.axis g'.nodes ∧
    sumPrimaries (commitTarget g).orientation.axis g'.nodes
      ≤ (commitTarget g).primaryExtent := by
  obtain ⟨f', ns, acc, -, hrm, hlen0, hpre, hproc, hg⟩ :=
    applyChangesG_ok_inv resize fuel g g' hch hrun
  obtain ⟨hlen, hidxs, haccEq, hsum⟩ :=
    processWith_ok (fun gg => applyChangesG resize f' gg) resize
      (commitTarget g).orientation.axis g.orientation.axis
      (commitQ g) (commitTarget g).secondaryExtent
      (commitRescale g) (commitOldTotal g)
      (fun gg gg' st0 hw hh hr => applyChangesG_keeps_own_size resize f' gg gg' st0 hw hh hr)
      g.nodes g.additions 0 (commitPre g) ns acc hsort
      (fun a _ => Nat.zero_le a) (fun a ha => by simpa using hbound a ha)
      hkeep hproc
  subst hg
  refine ⟨hlen, ?_, ?_, ?_⟩
  · intro k hk
    obtain ⟨n0, n1, h0, h1, h2, h3⟩ := hidxs k hk
    refine ⟨n0, n1, h0, h1, h2, ?_⟩
    rw [Nat.zero_add] at h3
    exact h3
  · show acc = sumPrimaries (commitTarget g).orientation.axis ns
    rw [hsum, haccEq]
    simp only [commitPre]
    ring
  · show sumPrimaries (commitTarget g).orientation.axis ns
      ≤ (commitTarget g).primaryExtent
    rw [hsum]
    have e3 : g.additions.length * commitQ g = commitPre g := by
      simp only [commitPre]
      ring
    rw [e3]
    have hle : rescaledSum g.orientation.axis (commitRescale g) (commitOldTotal g)
        g.nodes g.additions 0 ≤ commitRescale g := by
      calc rescaledSum g.orientation.axis (commitRescale g) (commitOldTotal g)
            g.nodes g.additions 0
          ≤ oldPrimarySum g.orientation.axis g.nodes g.additions 0
              * commitRescale g / commitOldTotal g := rescaledSum_le _ _ _ _ _ _
        _ = commitOldTotal g * commitRescale g / commitOldTotal g := by rw [hS]
        _ = commitRescale g := Nat.mul_div_cancel_left _ hSpos
    have e1 : commitRescale g
        = (commitTarget g).primaryExtent - commitPre g := rfl
    omega

/-- A `900 × 300` horizontal group holding two committed `300 × 300`
windows and one pending addition, after a `300`-wide removal (the spec's
end-to-end scenario): `S = 900 - 300 = 600`. -/
def c2W : GroupNode Nat :=
  { orientation := .leftToRight,
    nodes := [Node.new_window 1 300 300, Node.new_window 2 300 300,
      Node.new_window 3 0 0],
    total_node_primary := 900, additions := [2], total_removed_primary := 300,
    new_orientation := none, new_width := none, new_height := none,
    width := 900, height := 300 }

/-- `c2W` after its successful commit: the two old windows keep
`floor(300 * 600 / 600) = 300`, the addition gets `floor(900 / 3) = 300`. -/
def c2WAfter : GroupNode Nat :=
  { orientation := .leftToRight,
    nodes := [Node.new_window 1 300 300, Node.new_window 2 300 300,
      Node.new_window 3 300 300],
    total_node_primary := 900, additions := [], total_removed_primary := 0,
    new_orientation := none, new_width := none, new_height := none,
    width := 900, height := 300 }

/-- Witness for `commit_proportional_rescale` on the spec's end-to-end
scenario `c2W`. -/
theorem commit_proportional_rescale_witness :
    c2WAfter.nodes.length = c2W.nodes.length ∧
    (∀ k, k < c2W.nodes.length →
      ∃ n0 n1, c2W.nodes[k]? = some n0 ∧ c2WAfter.nodes[k]? = some n1 ∧
        n1.secondary (commitTarget c2W).orientation.axis
          = (commitTarget c2W).secondaryExtent ∧
        n1.primary (commitTarget c2W).orientation.axis
          = (if k ∈ c2W.additions then commitQ c2W
             else n0.primary c2W.orientation.axis * commitRescale c2W
                    / commitOldTotal c2W)) ∧
    c2WAfter.total_node_primary
      = sumPrimaries (commitTarget c2W).orientation.axis c2WAfter.nodes ∧
    sumPrimaries (commitTarget c2W).orientation.axis c2WAfter.nodes
      ≤ (commitTarget c2W).primaryExtent := by
  have h := commit_proportional_rescale resizeOk 1 c2W c2WAfter rfl
    (by simp [c2W]) (by decide)
    (by
      intro n hn
      simp only [c2W, List.mem_cons] at hn
      rcases hn with h | h | h | h
      all_goals first
        | (subst h; exact trivial)
        | exact absurd h (List.not_mem_nil _))
    rfl (by decide) rfl
  exact h

/-! ### C1 — exactness of the `additions` bookkeeping

The ghost state of the proof is a list of tags mirroring `nodes`: a child's
tag is `true` exactly when the child was inserted since the last commit.
`additionsSpec tags` lists the positions of the `true` tags in ascending
order — the "true set of uncommitted child positions" of the claim. -/

/-- The positions (ascending) of the `true` entries of a tag list. -/
def additionsSpec : List Bool → List Nat
  | [] => []
  | b :: tags =>
      (if b then [0] else []) ++ (additionsSpec tags).map (· + 1)

theorem additionsSpec_sorted :
    ∀ tags : List Bool, List.Sorted (· < ·) (additionsSpec tags) := by
  intro tags
  induction tags with
  | nil => exact List.sorted_nil
  | cons b rest ih =>
    have hmap : List.Sorted (· < ·) ((additionsSpec rest).map (· + 1)) := by
      refine List.Pairwise.map _ ?_ ih
      intro a b hab
      omega
    cases b with
    | false => simpa [additionsSpec] using hmap
    | true =>
      simp only [additionsSpec, if_pos, List.cons_append, List.nil_append]
      refine List.sorted_cons.mpr ⟨?_, hmap⟩
      intro x hx
      obtain ⟨y, -, hy⟩ := List.mem_map.mp hx
      omega

theorem additionsSpec_mem (tags : List Bool) :
    ∀ j, j ∈ additionsSpec tags ↔ tags.getD j false = true := by
  induction tags with
  | nil => intro j; simp [additionsSpec]
  | cons b rest ih =>
    intro j
    cases j with
    | zero =>
      cases b <;> simp [additionsSpec, ih]
    | succ j =>
      cases b <;> simp [additionsSpec, ih j]

theorem additionsSpec_lt (tags : List Bool) :
    ∀ j ∈ additionsSpec tags, j < tags.length := by
  intro j hj
  by_contra hge
  have := (additionsSpec_mem tags j).mp hj
  rw [List.getD_eq_default] at this
  · exact Bool.noConfusion this
  · omega

theorem additionsSpec_replicate (n : Nat) :
    additionsSpec (List.replicate n false) = [] := by
  induction n with
  | zero => rfl
  | succ m ih => simp [List.replicate, additionsSpec, ih]

theorem additionsSpec_append_singleton (tags : List Bool) (b : Bool) :
    additionsSpec (tags ++ [b])
      = additionsSpec tags ++ (if b then [tags.length] else []) := by
  induction tags with
  | nil => cases b <;> simp [additionsSpec]
  | cons c rest ih =>
    cases c <;> cases b <;>
      simp [additionsSpec, ih, List.map_append, Nat.add_comm]

/-- `takeWhile (< i+1)` on a `+1`-shifted list is the shift of
`takeWhile (< i)`. -/
theorem takeWhile_lt_map_succ (i : Nat) (s : List Nat) :
    (s.map (· + 1)).takeWhile (fun a => a < i + 1)
      = (s.takeWhile (fun a => a < i)).map (· + 1) := by
  rw [List.takeWhile_map]
  have hpred : ((fun a => decide (a < i + 1)) ∘ fun x => x + 1)
      = (fun a => decide (a < i)) := by
    funext a
    simp [Nat.succ_lt_succ_iff]
  rw [hpred]

theorem dropWhile_lt_map_succ (i : Nat) (s : List Nat) :
    (s.map (· + 1)).dropWhile (fun a => a < i + 1)
      = (s.dropWhile (fun a => a < i)).map (· + 1) := by
  rw [List.dropWhile_map]
  have hpred : ((fun a => decide (a < i + 1)) ∘ fun x => x + 1)
      = (fun a => decide (a < i)) := by
    funext a
    simp [Nat.succ_lt_succ_iff]
  rw [hpred]

theorem takeWhile_lt_zero (l : List Nat) :
    l.takeWhile (fun a => a < 0) = [] := by
  cases l with
  | nil => rfl
  | cons a rest => simp [List.takeWhile_cons]

theorem dropWhile_lt_zero (l : List Nat) :
    l.dropWhile (fun a => a < 0) = l := by
  cases l with
  | nil => rfl
  | cons a rest => simp [List.dropWhile_cons]

/-- Shifting every entry commutes with `track_insert`. -/
theorem track_insert_map_succ (i : Nat) (s : List Nat) :
    GroupNodeF.track_insert (i + 1) (s.map (· + 1))
      = (GroupNodeF.track_insert i s).map (· + 1) := by
  simp only [GroupNodeF.track_insert, takeWhile_lt_map_succ, dropWhile_lt_map_succ,
    List.map_append, List.map_cons, List.map_map]

theorem track_insert_cons_lt (i a : Nat) (l : List Nat) (h : a < i) :
    GroupNodeF.track_insert i (a :: l) = a :: GroupNodeF.track_insert i l := by
  simp only [GroupNodeF.track_insert, List.takeWhile_cons, List.dropWhile_cons]
  simp [h]

/-- `track_insert` matches the specification set: inserting a `true` tag at
position `i ≤ len` turns the position list of `tags` into the position
list of the updated tags. -/
theorem track_insert_spec :
    ∀ (tags : List Bool) (i : Nat), i ≤ tags.length →
      GroupNodeF.track_insert i (additionsSpec tags)
        = additionsSpec (tags.insertIdx i true) := by
  intro tags
  induction tags with
  | nil =>
    intro i hi
    have h0 : i = 0 := by simpa using hi
    subst h0
    simp [GroupNodeF.track_insert, additionsSpec, takeWhile_lt_zero,
      dropWhile_lt_zero]
  | cons b rest ih =>
    intro i hi
    cases i with
    | zero =>
      show GroupNodeF.track_insert 0 (additionsSpec (b :: rest))
          = additionsSpec (true :: b :: rest)
      simp only [GroupNodeF.track_insert, takeWhile_lt_zero, dropWhile_lt_zero,
        List.nil_append]
      simp [additionsSpec]
    | succ i =>
      have hi' : i ≤ rest.length := by simpa using hi
      cases b with
      | true =>
        calc GroupNodeF.track_insert (i + 1)
              (additionsSpec (true :: rest))
            = GroupNodeF.track_insert (i + 1)
                (0 :: (additionsSpec rest).map (· + 1)) := by
              simp [additionsSpec]
          _ = 0 :: GroupNodeF.track_insert (i + 1)
                ((additionsSpec rest).map (· + 1)) :=
              track_insert_cons_lt _ _ _ (by omega)
          _ = 0 :: (GroupNodeF.track_insert i (additionsSpec rest)).map (· + 1) := by
              rw [track_insert_map_succ]
          _ = 0 :: (additionsSpec (rest.insertIdx i true)).map (· + 1) := by
              rw [ih i hi']
          _ = additionsSpec ((true :: rest).insertIdx (i + 1) true) := by
              rw [List.insertIdx_succ_cons]
              simp [additionsSpec]
      | false =>
        calc GroupNodeF.track_insert (i + 1)
              (additionsSpec (false :: rest))
            = GroupNodeF.track_insert (i + 1)
                ((additionsSpec rest).map (· + 1)) := by
              simp [additionsSpec]
          _ = (GroupNodeF.track_insert i (additionsSpec rest)).map (· + 1) := by
              rw [track_insert_map_succ]
          _ = (additionsSpec (rest.insertIdx i true)).map (· + 1) := by
              rw [ih i hi']
          _ = additionsSpec ((false :: rest).insertIdx (i + 1) true) := by
              rw [List.insertIdx_succ_cons]
              simp [additionsSpec]

theorem dropWhile_head_false {p : Nat → Bool} :
    ∀ {l : List Nat} {a : Nat} {rest : List Nat},
      l.dropWhile p = a :: rest → p a = false := by
  intro l
  induction l with
  | nil => intro a rest h; exact List.noConfusion h
  | cons x xs ih =>
    intro a rest h
    rw [List.dropWhile_cons] at h
    split at h
    · exact ih h
    · next hx =>
      injection h with h1 h2
      subst h1
      exact Bool.eq_false_iff.mpr hx

theorem map_succ_pred (s : List Nat) :
    (s.map (· + 1)).map (fun x => x - 1) = s := by
  rw [List.map_map]
  have : ((fun x => x - 1) ∘ fun x : Nat => x + 1) = id := by
    funext x
    simp
  rw [this, List.map_id]

theorem track_remove_zero_map_succ (s : List Nat) :
    GroupNodeF.track_remove 0 (s.map (· + 1)) = s := by
  simp only [GroupNodeF.track_remove, takeWhile_lt_zero, dropWhile_lt_zero]
  have hne : ¬ ((s.map (· + 1)).head? = some 0) := by
    cases s <;> simp
  rw [if_neg hne, List.nil_append]
  exact map_succ_pred s

/-- The elements of the suffix left by `dropWhile (· < i)` of a sorted list
are all `≥ i`. -/
theorem dropWhile_lt_ge (i : Nat) (s : List Nat) (hs : List.Sorted (· < ·) s) :
    ∀ x ∈ s.dropWhile (fun a => a < i), i ≤ x := by
  intro x hx
  cases hdw : s.dropWhile (fun a => a < i) with
  | nil => rw [hdw] at hx; exact absurd hx (List.not_mem_nil x)
  | cons a rest =>
    have ha : i ≤ a := by
      have := dropWhile_head_false (p := fun a => decide (a < i)) hdw
      simpa using this
    have hsorted : List.Sorted (· < ·) (a :: rest) := by
      rw [← hdw]
      exact hs.sublist (List.dropWhile_sublist _)
    rw [hdw] at hx
    rcases List.mem_cons.mp hx with hx | hx
    · omega
    · have := (List.sorted_cons.mp hsorted).1 x hx
      omega

theorem map_pred_succ (t : List Nat) (h : ∀ x ∈ t, 1 ≤ x) :
    (t.map (fun x => x - 1)).map (· + 1) = t := by
  rw [List.map_map]
  calc t.map ((· + 1) ∘ fun x => x - 1)
      = t.map id := List.map_congr_left (fun x hx => by
        have := h x hx
        simp only [Function.comp_apply, id_eq]
        omega)
    _ = t := List.map_id t

/-- Shifting every entry commutes with `track_remove` on a sorted list. -/
theorem track_remove_map_succ (i : Nat) (s : List Nat)
    (hs : List.Sorted (· < ·) s) :
    GroupNodeF.track_remove (i + 1) (s.map (· + 1))
      = (GroupNodeF.track_remove i s).map (· + 1) := by
  simp only [GroupNodeF.track_remove, takeWhile_lt_map_succ, dropWhile_lt_map_succ]
  have hge := dropWhile_lt_ge i s hs
  have hsorted : List.Sorted (· < ·) (s.dropWhile (fun a => a < i)) :=
    hs.sublist (List.dropWhile_sublist _)
  by_cases hc : (s.dropWhile (fun a => a < i)).head? = some i
  · have hmapped : ((s.dropWhile (fun a => a < i)).map (· + 1)).head?
        = some (i + 1) := by
      rw [List.head?_map, hc]
      rfl
    rw [if_pos hmapped, if_pos hc, List.map_append]
    congr 1
    have htail : ∀ x ∈ (s.dropWhile (fun a => a < i)).tail, 1 ≤ x := by
      intro x hx
      cases hdw : s.dropWhile (fun a => a < i) with
      | nil => rw [hdw] at hx; exact absurd hx (List.not_mem_nil x)
      | cons a rest =>
        rw [hdw, List.head?_cons, Option.some.injEq] at hc
        rw [hdw, List.tail_cons] at hx
        have := (List.sorted_cons.mp (hdw ▸ hsorted)).1 x hx
        omega
    calc ((s.dropWhile (fun a => a < i)).map (· + 1)).tail.map (fun x => x - 1)
        = ((s.dropWhile (fun a => a < i)).tail.map (· + 1)).map (fun x => x - 1) := by
          rw [← List.map_tail]
      _ = (s.dropWhile (fun a => a < i)).tail := map_succ_pred _
      _ = ((s.dropWhile (fun a => a < i)).tail.map (fun x => x - 1)).map (· + 1) :=
          (map_pred_succ _ htail).symm
  · have hai : ∀ a, (s.dropWhile (fun a => a < i)).head? = some a → a ≠ i :=
      fun a hh he => hc (by rw [hh, he])
    have hmapped : ¬ (((s.dropWhile (fun a => a < i)).map (· + 1)).head?
        = some (i + 1)) := by
      rw [List.head?_map]
      cases hh : (s.dropWhile (fun a => a < i)).head? with
      | none => simp
      | some a =>
        have ha := hai a hh
        simp only [Option.map_some']
        intro hx
        injection hx with hx
        omega
    rw [if_neg hmapped, if_neg hc, List.map_append]
    congr 1
    have hall : ∀ x ∈ s.dropWhile (fun a => a < i), 1 ≤ x := by
      intro x hx
      cases hdw : s.dropWhile (fun a => a < i) with
      | nil => rw [hdw] at hx; exact absurd hx (List.not_mem_nil x)
      | cons a rest =>
        have ha1 : i ≤ a := hge a (by rw [hdw]; exact List.mem_cons_self a rest)
        have ha2 : a ≠ i := hai a (by rw [hdw]; rfl)
        rw [hdw] at hx
        rcases List.mem_cons.mp hx with hx | hx
        · omega
        · have := (List.sorted_cons.mp (hdw ▸ hsorted)).1 x hx
          omega
    calc ((s.dropWhile (fun a => a < i)).map (· + 1)).map (fun x => x - 1)
        = s.dropWhile (fun a => a < i) := map_succ_pred _
      _ = ((s.dropWhile (fun a => a < i)).map (fun x => x - 1)).map (· + 1) :=
          (map_pred_succ _ hall).symm

theorem track_remove_cons_lt (i a : Nat) (l : List Nat) (h : a < i) :
    GroupNodeF.track_remove i (a :: l) = a :: GroupNodeF.track_remove i l := by
  have hd : decide (a < i) = true := by simpa using h
  simp only [GroupNodeF.track_remove, List.takeWhile_cons, List.dropWhile_cons,
    hd, if_true]
  split <;> simp

/-- `track_remove` matches the specification set: removing the tag at
position `i < len` turns the position list of `tags` into the position
list of the shrunk tag list. -/
theorem track_remove_spec :
    ∀ (tags : List Bool) (i : Nat), i < tags.length →
      GroupNodeF.track_remove i (additionsSpec tags)
        = additionsSpec (tags.eraseIdx i) := by
  intro tags
  induction tags with
  | nil => intro i hi; simp at hi
  | cons b rest ih =>
    intro i hi
    cases i with
    | zero =>
      cases b with
      | true =>
        show GroupNodeF.track_remove 0 (0 :: (additionsSpec rest).map (· + 1))
            = additionsSpec rest
        simp only [GroupNodeF.track_remove, takeWhile_lt_zero, dropWhile_lt_zero]
        rw [if_pos (by simp)]
        show [] ++ ((additionsSpec rest).map (· + 1)).map (fun x => x - 1)
            = additionsSpec rest
        rw [List.nil_append]
        exact map_succ_pred _
      | false =>
        show GroupNodeF.track_remove 0 ((additionsSpec rest).map (· + 1))
            = additionsSpec rest
        exact track_remove_zero_map_succ _
    | succ i =>
      have hi' : i < rest.length := by simpa using hi
      have hsorted := additionsSpec_sorted rest
      cases b with
      | true =>
        show GroupNodeF.track_remove (i + 1)
              (0 :: (additionsSpec rest).map (· + 1))
            = additionsSpec (true :: rest.eraseIdx i)
        rw [track_remove_cons_lt _ _ _ (by omega)]
        rw [track_remove_map_succ i _ hsorted, ih i hi']
        simp [additionsSpec]
      | false =>
        show GroupNodeF.track_remove (i + 1)
              ((additionsSpec rest).map (· + 1))
            = additionsSpec (false :: rest.eraseIdx i)
        rw [track_remove_map_succ i _ hsorted, ih i hi']
        simp [additionsSpec]

/-- `track_push` (called with the length *after* the push) matches the
specification set of appending a `true` tag. -/
theorem track_push_spec (tags : List Bool) :
    GroupNodeF.track_push (tags.length + 1) (additionsSpec tags)
      = additionsSpec (tags ++ [true]) := by
  simp [GroupNodeF.track_push, additionsSpec_append_singleton]


/-- A structural edit a layout manager can make between commits. -/
inductive Op (W : Type) : Type where
  | insertWindowAt (index : Nat) (window : W)
  | insertGroupAt (index : Nat) (orientation : Orientation)
  | pushWindowOp (window : W)
  | pushGroupOp (orientation : Orientation)
  | removeAt (index : Nat)

/-- Apply one structural edit; `none` models an out-of-range panic. -/
def applyOp (g : GroupNode W) : Op W → Option (GroupNode W)
  | .insertWindowAt i w => g.insert_window i w
  | .insertGroupAt i o => g.insert_group i o
  | .pushWindowOp w => some (g.push_window w)
  | .pushGroupOp o => some (g.push_group o)
  | .removeAt i => (g.remove i).map (fun x => x.snd)

/-- Apply a sequence of structural edits. -/
def applyOps (g : GroupNode W) : List (Op W) → Option (GroupNode W)
  | [] => some g
  | op :: ops => match applyOp g op with
    | none => none
    | some g1 => applyOps g1 ops

/-- The ghost mirror of one edit on the tag list (`true` = inserted since
the last commit).  `rev` is the committed orientation's `reversed()` flag,
which decides where a push physically lands. -/
def tagOp (rev : Bool) : Op W → List Bool → List Bool
  | .insertWindowAt i _, tags => tags.insertIdx i true
  | .insertGroupAt i _, tags => tags.insertIdx i true
  | .pushWindowOp _, tags => if rev then true :: tags else tags ++ [true]
  | .pushGroupOp _, tags => if rev then true :: tags else tags ++ [true]
  | .removeAt i, tags => tags.eraseIdx i

/-- The ghost mirror of a sequence of edits. -/
def tagOps (rev : Bool) : List (Op W) → List Bool → List Bool
  | [], tags => tags
  | op :: ops, tags => tagOps rev ops (tagOp rev op tags)

/-- One edit preserves the bookkeeping relation between the group and its
ghost tags, and never touches the committed orientation. -/
theorem applyOp_inv (g g' : GroupNode W) (tags : List Bool) (op : Op W)
    (hlen : g.nodes.length = tags.length)
    (hadd : g.additions = additionsSpec tags)
    (h : applyOp g op = some g') :
    g'.nodes.length = (tagOp g.orientation.reversed op tags).length ∧
    g'.additions = additionsSpec (tagOp g.orientation.reversed op tags) ∧
    g'.orientation = g.orientation := by
  cases op with
  | insertWindowAt i w =>
    simp only [applyOp, GroupNodeF.insert_window] at h
    split at h
    · next hle =>
      simp only [Option.some.injEq] at h
      subst h
      have hle2 : i ≤ tags.length := hlen ▸ hle
      refine ⟨?_, ?_, rfl⟩
      · show (g.nodes.insertIdx i (Node.new_window w 0 0)).length
            = (tags.insertIdx i true).length
        rw [List.length_insertIdx i _ hle, List.length_insertIdx i _ hle2, hlen]
      · show GroupNodeF.track_insert i g.additions
            = additionsSpec (tags.insertIdx i true)
        rw [hadd]
        exact track_insert_spec tags i hle2
    · exact Option.noConfusion h
  | insertGroupAt i o =>
    simp only [applyOp, GroupNodeF.insert_group] at h
    split at h
    · next hle =>
      simp only [Option.some.injEq] at h
      subst h
      have hle2 : i ≤ tags.length := hlen ▸ hle
      refine ⟨?_, ?_, rfl⟩
      · show (g.nodes.insertIdx i (Node.new_group o 0 0)).length
            = (tags.insertIdx i true).length
        rw [List.length_insertIdx i _ hle, List.length_insertIdx i _ hle2, hlen]
      · show GroupNodeF.track_insert i g.additions
            = additionsSpec (tags.insertIdx i true)
        rw [hadd]
        exact track_insert_spec tags i hle2
    · exact Option.noConfusion h
  | pushWindowOp w =>
    simp only [applyOp, Option.some.injEq] at h
    subst h
    simp only [GroupNodeF.push_window, GroupNodeF.push_node, tagOp]
    cases hrev : g.orientation.reversed with
    | false =>
      simp only [eq_self_iff_true, if_true, Bool.false_eq_true, if_false]
      refine ⟨?_, ?_, trivial⟩
      · simp [hlen]
      · show GroupNodeF.track_push (g.nodes ++ [Node.new_window w 0 0]).length
            g.additions = additionsSpec (tags ++ [true])
        rw [hadd, List.length_append, hlen]
        have := track_push_spec tags
        simpa using this
    | true =>
      simp only [Bool.true_eq_false, if_false, eq_self_iff_true, if_true]
      refine ⟨?_, ?_, trivial⟩
      · simp [hlen]
      · show GroupNodeF.track_insert 0 g.additions
            = additionsSpec (true :: tags)
        rw [hadd]
        have := track_insert_spec tags 0 (Nat.zero_le _)
        rwa [List.insertIdx_zero] at this
  | pushGroupOp o =>
    simp only [applyOp, Option.some.injEq] at h
    subst h
    simp only [GroupNodeF.push_group, GroupNodeF.push_node, tagOp]
    cases hrev : g.orientation.reversed with
    | false =>
      simp only [eq_self_iff_true, if_true, Bool.false_eq_true, if_false]
      refine ⟨?_, ?_, trivial⟩
      · simp [hlen]
      · show GroupNodeF.track_push (g.nodes ++ [Node.new_group o 0 0]).length
            g.additions = additionsSpec (tags ++ [true])
        rw [hadd, List.length_append, hlen]
        have := track_push_spec tags
        simpa using this
    | true =>
      simp only [Bool.true_eq_false, if_false, eq_self_iff_true, if_true]
      refine ⟨?_, ?_, trivial⟩
      · simp [hlen]
      · show GroupNodeF.track_insert 0 g.additions
            = additionsSpec (true :: tags)
        rw [hadd]
        have := track_insert_spec tags 0 (Nat.zero_le _)
        rwa [List.insertIdx_zero] at this
  | removeAt i =>
    simp only [applyOp, GroupNodeF.remove] at h
    split at h
    · next hlt =>
      simp only [Option.map_some', Option.some.injEq] at h
      subst h
      have hlt2 : i < tags.length := hlen ▸ hlt
      refine ⟨?_, ?_, rfl⟩
      · show (g.nodes.eraseIdx i).length = (tags.eraseIdx i).length
        rw [List.length_eraseIdx_of_lt hlt, List.length_eraseIdx_of_lt hlt2, hlen]
      · show GroupNodeF.track_remove i g.additions
            = additionsSpec (tags.eraseIdx i)
        rw [hadd]
        exact track_remove_spec tags i hlt2
    · exact Option.noConfusion h

/-- A whole edit sequence preserves the bookkeeping relation. -/
theorem applyOps_inv :
    ∀ (ops : List (Op W)) (g g' : GroupNode W) (tags : List Bool),
      g.nodes.length = tags.length →
      g.additions = additionsSpec tags →
      applyOps g ops = some g' →
      g'.nodes.length = (tagOps g.orientation.reversed ops tags).length ∧
      g'.additions = additionsSpec (tagOps g.orientation.reversed ops tags) := by
  intro ops
  induction ops with
  | nil =>
    intro g g' tags hlen hadd h
    simp only [applyOps, Option.some.injEq] at h
    subst h
    exact ⟨hlen, hadd⟩
  | cons op ops ih =>
    intro g g' tags hlen hadd h
    simp only [applyOps] at h
    cases hop : applyOp g op with
    | none => rw [hop] at h; exact Option.noConfusion h
    | some g1 =>
      rw [hop] at h
      obtain ⟨hlen1, hadd1, hor⟩ := applyOp_inv g g1 tags op hlen hadd hop
      have hres := ih g1 g' (tagOp g.orientation.reversed op tags) hlen1 hadd1 h
      rw [hor] at hres
      exact hres

/-- C1: starting from a freshly committed group (`additions = []`, ghost
tags all `false`), after *any* valid interleaving of
`insert_window`/`insert_group`/`push_window`/`push_group`/`remove` edits
the `additions` list is sorted strictly ascending (hence duplicate-free),
every entry is a valid index into `nodes`, and the entries are exactly the
current positions of the children inserted since the last commit (the
`true` positions of the ghost tag list, which `tagOp` shifts positionally
in lockstep with the storage edits: an insert at `i` places `i` at the
first entry `≥ i` and increments every later entry, a remove at `i`
deletes `i`'s entry if present and decrements every entry at or after the
search point — `track_insert`/`track_push`/`track_remove` exactly). -/
theorem additions_bookkeeping_exact (ops : List (Op W)) (g0 g' : GroupNode W)
    (hcommitted : g0.additions = [])
    (hrun : applyOps g0 ops = some g') :
    List.Sorted (· < ·) g'.additions ∧
    g'.additions.Nodup ∧
    (∀ j ∈ g'.additions, j < g'.nodes.length) ∧
    (∀ j, j ∈ g'.additions ↔
      (tagOps g0.orientation.reversed ops
        (List.replicate g0.nodes.length false)).getD j false = true) := by
  have hlen0 : g0.nodes.length = (List.replicate g0.nodes.length false).length := by
    simp
  have hadd0 : g0.additions
      = additionsSpec (List.replicate g0.nodes.length false) := by
    rw [hcommitted, additionsSpec_replicate]
  obtain ⟨hlen, hadd⟩ := applyOps_inv ops g0 g' _ hlen0 hadd0 hrun
  refine ⟨?_, ?_, ?_, ?_⟩
  · rw [hadd]
    exact additionsSpec_sorted _
  · rw [hadd]
    exact (additionsSpec_sorted _).nodup
  · intro j hj
    rw [hadd] at hj
    rw [hlen]
    exact additionsSpec_lt _ j hj
  · intro j
    rw [hadd]
    exact additionsSpec_mem _ j

/-- A freshly committed `600 × 300` group with two `300 × 300` windows. -/
def c1Group : GroupNode Nat :=
  { orientation := .leftToRight,
    nodes := [Node.new_window 1 300 300, Node.new_window 2 300 300],
    total_node_primary := 600, additions := [], total_removed_primary := 0,
    new_orientation := none, new_width := none, new_height := none,
    width := 600, height := 300 }

/-- An interleaving exercising push, insert, removing an old child,
pushing a group, and removing a pending addition. -/
def c1Ops : List (Op Nat) :=
  [.pushWindowOp 9, .insertWindowAt 1 10, .removeAt 0,
   .pushGroupOp .topToBottom, .removeAt 2]

/-- `c1Group` after `c1Ops`. -/
def c1After : GroupNode Nat :=
  { orientation := .leftToRight,
    nodes := [Node.new_window 10 0 0, Node.new_window 2 300 300,
      Node.new_group .topToBottom 0 0],
    total_node_primary := 600, additions := [0, 2], total_removed_primary := 300,
    new_orientation := none, new_width := none, new_height := none,
    width := 600, height := 300 }

/-- Witness for `additions_bookkeeping_exact` on `c1Group` / `c1Ops`
(final `additions = [0, 2]`, final tags `[true, false, true]`). -/
theorem additions_bookkeeping_exact_witness :
    List.Sorted (· < ·) c1After.additions ∧
    c1After.additions.Nodup ∧
    (∀ j ∈ c1After.additions, j < c1After.nodes.length) ∧
    (∀ j, j ∈ c1After.additions ↔
      (tagOps c1Group.orientation.reversed c1Ops
        (List.replicate c1Group.nodes.length false)).getD j false = true) :=
  additions_bookkeeping_exact c1Ops c1Group c1After rfl rfl

example : (GroupNodeF.new .leftToRight 3 4 : GroupNode Nat).width = 3 := rfl
example : (GroupNodeF.new .rightToLeft 3 4 : GroupNode Nat).effectiveOrientation
    = .rightToLeft := rfl
example :
    ((GroupNodeF.new .leftToRight 3 4 : GroupNode Nat).push_window 7).nodes
      = [Node.new_window 7 0 0] := rfl
example :
    ((GroupNodeF.new .rightToLeft 3 4 : GroupNode Nat).push_window 7).additions
      = [0] := rfl
example :
    (GroupNodeF.new .leftToRight 3 4 : GroupNode Nat).rotate_by 4
      = some ((GroupNodeF.new .leftToRight 3 4 : GroupNode Nat).set_orientation
          .topToBottom) := rfl
example :
    (GroupNodeF.new .leftToRight 3 4 : GroupNode Nat).rotate_by (-1) = none := rfl
example :
    (GroupNodeF.new .rightToLeft 3 4 : GroupNode Nat).get 0 = none := rfl

end AquariWM
